import Mathlib

/-!
Verification of the Kociemba two-phase Rubik's cube solver.

The definitions in this file are shallow embeddings of the Python sources:
  * `Kociemba.*`      : solver_kociemba.py (the optimal variant); the cubie
    model, move generators, coordinate codecs, facelet conversion, pruning
    accessors and the validation / early-return prefix of `Search.solve`.
    solver_kociemba_fast.py (`SearchFast`) duplicates this code textually;
    where its lines are identical we model both with a single definition and
    say so in the doc comment.
  * `Kociemba.pure_*` : kociemba_pure.py, whose codec loops, pruning writer,
    phase-2 move filter and error strings differ from the other variants.

Machine integers do not overflow in the modelled code (plain Python ints),
so all arithmetic is on `Nat`; `%` and `/` appear exactly where the source
has `%` and `//`.  Python lists become `List Nat` accessed with `getD`
(the sources only index in bounds on the inputs our theorems use).
`while` loops whose bound is data dependent are given explicit fuel that
dominates the iteration count on every input the source terminates on.
-/

namespace Kociemba

/-- Product loop of `Cnk` (solver_kociemba.py lines 107-110):
`s = 1; for i in range(k): s = s * (n - i) // (i + 1)`. -/
def CnkLoop (n : Nat) : Nat → Nat
  | 0 => 1
  | k + 1 => CnkLoop n k * (n - k) / (k + 1)

/-- `Cnk(n, k)` from solver_kociemba.py lines 102-111 (same code appears in
kociemba_pure.py and solver_kociemba_fast.py): binomial coefficient with an
early 0 for `n < k` and the symmetry reduction `k := n - k` for `k > n // 2`. -/
def Cnk (n k : Nat) : Nat :=
  if n < k then 0
  else if k > n / 2 then CnkLoop n (n - k)
  else CnkLoop n k

/-- `rotate_left(arr, l, r)` (solver_kociemba.py lines 114-119): the element
at `l` moves to `r` and positions `l+1..r` shift down one place. -/
def rotate_left (arr : List Nat) (l r : Nat) : List Nat :=
  arr.take l ++ (arr.drop (l + 1)).take (r - l) ++ [arr.getD l 0] ++ arr.drop (r + 1)

/-- `rotate_right(arr, l, r)` (solver_kociemba.py lines 122-127): the element
at `r` moves to `l` and positions `l..r-1` shift up one place. -/
def rotate_right (arr : List Nat) (l r : Nat) : List Nat :=
  arr.take l ++ [arr.getD r 0] ++ (arr.drop l).take (r - l) ++ arr.drop (r + 1)

/-- Cubie-level cube state (solver_kociemba.py class `CubieCube`):
corner/edge permutations and orientations as plain lists. -/
structure CubieCube where
  cp : List Nat
  co : List Nat
  ep : List Nat
  eo : List Nat
  deriving DecidableEq, Repr

/-- The solved cube: `CubieCube()` with its default arguments. -/
def solvedCube : CubieCube :=
  { cp := [0, 1, 2, 3, 4, 5, 6, 7]
    co := [0, 0, 0, 0, 0, 0, 0, 0]
    ep := [0, 1, 2, 3, 4, 5, 6, 7, 8, 9, 10, 11]
    eo := [0, 0, 0, 0, 0, 0, 0, 0, 0, 0, 0, 0] }

/-- `CubieCube.corner_multiply` (lines 145-150):
`cp_new[i] = cp[b.cp[i]]`, `co_new[i] = (co[b.cp[i]] + b.co[i]) % 3`. -/
def corner_multiply (a b : CubieCube) : CubieCube :=
  { a with
    cp := (List.range 8).map fun i => a.cp.getD (b.cp.getD i 0) 0
    co := (List.range 8).map fun i => (a.co.getD (b.cp.getD i 0) 0 + b.co.getD i 0) % 3 }

/-- `CubieCube.edge_multiply` (lines 152-157). -/
def edge_multiply (a b : CubieCube) : CubieCube :=
  { a with
    ep := (List.range 12).map fun i => a.ep.getD (b.ep.getD i 0) 0
    eo := (List.range 12).map fun i => (a.eo.getD (b.ep.getD i 0) 0 + b.eo.getD i 0) % 2 }

/-- `CubieCube.multiply` (lines 159-162): corners then edges. -/
def multiply (a b : CubieCube) : CubieCube :=
  edge_multiply (corner_multiply a b) b

/-- The six generators `MOVE_CUBE` (solver_kociemba.py lines 514-558),
order U, R, F, D, L, B; each list is the literal table from the source. -/
def MOVE_CUBE : List CubieCube :=
  [ { cp := [3, 0, 1, 2, 4, 5, 6, 7], co := [0, 0, 0, 0, 0, 0, 0, 0]
      ep := [3, 0, 1, 2, 4, 5, 6, 7, 8, 9, 10, 11]
      eo := [0, 0, 0, 0, 0, 0, 0, 0, 0, 0, 0, 0] }
  , { cp := [4, 1, 2, 0, 7, 5, 6, 3], co := [2, 0, 0, 1, 1, 0, 0, 2]
      ep := [8, 1, 2, 3, 11, 5, 6, 7, 4, 9, 10, 0]
      eo := [0, 0, 0, 0, 0, 0, 0, 0, 0, 0, 0, 0] }
  , { cp := [1, 5, 2, 3, 0, 4, 6, 7], co := [1, 2, 0, 0, 2, 1, 0, 0]
      ep := [0, 9, 2, 3, 4, 8, 6, 7, 1, 5, 10, 11]
      eo := [0, 1, 0, 0, 0, 1, 0, 0, 1, 1, 0, 0] }
  , { cp := [0, 1, 2, 3, 5, 6, 7, 4], co := [0, 0, 0, 0, 0, 0, 0, 0]
      ep := [0, 1, 2, 3, 5, 6, 7, 4, 8, 9, 10, 11]
      eo := [0, 0, 0, 0, 0, 0, 0, 0, 0, 0, 0, 0] }
  , { cp := [0, 2, 6, 3, 4, 1, 5, 7], co := [0, 1, 2, 0, 0, 2, 1, 0]
      ep := [0, 1, 10, 3, 4, 5, 9, 7, 8, 2, 6, 11]
      eo := [0, 0, 0, 0, 0, 0, 0, 0, 0, 0, 0, 0] }
  , { cp := [0, 1, 3, 7, 4, 5, 2, 6], co := [0, 0, 1, 2, 0, 0, 2, 1]
      ep := [0, 1, 2, 11, 4, 5, 6, 10, 8, 9, 3, 7]
      eo := [0, 0, 0, 1, 0, 0, 0, 1, 0, 0, 1, 1] } ]

/-- One clockwise quarter-turn of generator `g` (index into `MOVE_CUBE`)
applied by right multiplication, as in the search and table generators. -/
def apply_gen (c : CubieCube) (g : Nat) : CubieCube :=
  multiply c (MOVE_CUBE.getD g solvedCube)

/-- Replay a word of generator indices starting from the solved cube. -/
def replay (gens : List Nat) : CubieCube :=
  gens.foldl apply_gen solvedCube

-- =============================================================
-- Coordinate codec helpers
-- =============================================================

/-- Rotation-count loop of the `get_*` codecs
(`k = 0; while sel[j] != t: rotate_left(sel, 0, j); k += 1`).
`fuel` bounds the number of rotations; every call site passes fuel `j + 1`,
which dominates the count whenever the target occurs in `sel[0..j]`
(the only situation in which the Python loop terminates). -/
def rotCount (t j : Nat) : Nat → List Nat → Nat × List Nat
  | 0, sel => (0, sel)
  | fuel + 1, sel =>
    if sel.getD j 0 = t then (0, sel)
    else
      match rotCount t j fuel (rotate_left sel 0 j) with
      | (k, s) => (k + 1, s)

/-- Permutation-index accumulation loop of the `get_*` codecs:
`for j in js: ...rotate...; b = (j + 1) * b + k`, with target `tgt j`. -/
def encPerm (tgt : Nat → Nat) : List Nat → List Nat → Nat → Nat
  | [], _, b => b
  | j :: js, sel, b =>
    match rotCount (tgt j) j (j + 1) sel with
    | (k, sel') => encPerm tgt js sel' ((j + 1) * b + k)

/-- Combination scan of the `get_*` codecs in ascending position order
(`for j in range(n): if pred(l[j]): a += Cnk(j, x+1); sel.append(l[j]); x += 1`),
over the position-annotated list `l.enum`. -/
def scanApp (pred : Nat → Bool) : List (Nat × Nat) → Nat → Nat → List Nat → Nat × List Nat
  | [], _, a, sel => (a, sel)
  | (j, v) :: rest, x, a, sel =>
    if pred v then scanApp pred rest (x + 1) (a + Cnk j (x + 1)) (sel ++ [v])
    else scanApp pred rest x a sel

/-- Combination scan of `get_FRtoBR`, which walks positions 11 down to 0 with
weight `Cnk(11 - j, x + 1)` and fills `edge4[3 - x]`; traversing the reversed
annotated list with re-based positions and prepending to `sel` yields the
same accumulator and the same final `edge4` list. -/
def scanPre (pred : Nat → Bool) : List (Nat × Nat) → Nat → Nat → List Nat → Nat × List Nat
  | [], _, a, sel => (a, sel)
  | (q, v) :: rest, x, a, sel =>
    if pred v then scanPre pred rest (x + 1) (a + Cnk q (x + 1)) (v :: sel)
    else scanPre pred rest x a sel

/-- `n` right rotations of `sel[0..j]` (the inner `while k > 0` loop of the
`set_*` codecs). -/
def rotNTimes (j : Nat) : Nat → List Nat → List Nat
  | 0, sel => sel
  | n + 1, sel => rotNTimes j n (rotate_right sel 0 j)

/-- Permutation-generation loop of the `set_*` codecs:
`for j in js: k = b % (j + 1); b //= (j + 1); rotate_right k times`. -/
def genPerm : List Nat → List Nat → Nat → List Nat
  | [], sel, _ => sel
  | j :: js, sel, b => genPerm js (rotNTimes j (b % (j + 1)) sel) (b / (j + 1))

/-- Combination placement loop of the `set_*` codecs:
`for j in js: if a - Cnk(pos j, x+1) >= 0: arr[j] = sel[selIdx x]; a -= ...; x -= 1`.
The counter is carried as `xs = x + 1` so that after the final placement
(Python `x = -1`) the weight is `Cnk(pos j, 0) = 1`, exactly as in the
source; `sel` is only indexed at `xs - 1 ≥ 0`, which covers every argument
on which the source does not index `sel` negatively. -/
def placeLoop (pos selIdx : Nat → Nat) (sel : List Nat) :
    List Nat → List Nat → Nat → Nat → List Nat
  | [], arr, _, _ => arr
  | j :: js, arr, a, xs =>
    if Cnk (pos j) xs ≤ a then
      placeLoop pos selIdx sel js (arr.set j (sel.getD (selIdx (xs - 1)) 0))
        (a - Cnk (pos j) xs) (xs - 1)
    else placeLoop pos selIdx sel js arr a xs

/-- Sentinel-replacement pass closing `set_FRtoBR`, `set_URFtoDLF` and
`set_URtoDF`: `x = 0; for j in range(n): if arr[j] == sentinel: arr[j] = others[x]; x += 1`. -/
def fillOther (sentinel : Nat) : List Nat → List Nat → List Nat
  | [], _ => []
  | v :: rest, others =>
    if v = sentinel then others.headD 0 :: fillOther sentinel rest others.tail
    else v :: fillOther sentinel rest others

-- =============================================================
-- Coordinate codecs (solver_kociemba.py CubieCube, lines 164-434)
-- =============================================================

/-- `get_twist` (lines 166-171): `ret = 3 * ret + co[i]` for `i` in 0..6. -/
def get_twist (c : CubieCube) : Nat :=
  (List.range 7).foldl (fun r i => 3 * r + c.co.getD i 0) 0

/-- Digit-extraction loop of `set_twist`, `i` descending. -/
def setOriAux (base : Nat) : List Nat → List Nat → Nat → Nat → List Nat × Nat
  | [], arr, _, par => (arr, par)
  | i :: is, arr, tw, par =>
    setOriAux base is (arr.set i (tw % base)) (tw / base) (par + tw % base)

/-- `set_twist` (lines 173-180): writes digits of `twist` base 3 into
`co[6..0]` and makes `co[7]` fix the orientation sum. -/
def set_twist (c : CubieCube) (twist : Nat) : CubieCube :=
  match setOriAux 3 [6, 5, 4, 3, 2, 1, 0] c.co twist 0 with
  | (co', par) => { c with co := co'.set 7 ((3 - par % 3) % 3) }

/-- `get_flip` (lines 182-187). -/
def get_flip (c : CubieCube) : Nat :=
  (List.range 11).foldl (fun r i => 2 * r + c.eo.getD i 0) 0

/-- `set_flip` (lines 189-196). -/
def set_flip (c : CubieCube) (flip : Nat) : CubieCube :=
  match setOriAux 2 [10, 9, 8, 7, 6, 5, 4, 3, 2, 1, 0] c.eo flip 0 with
  | (eo', par) => { c with eo := eo'.set 11 ((2 - par % 2) % 2) }

/-- `get_FRtoBR` (lines 198-214): scans `ep[11]` down to `ep[0]` for the four
slice edges (values 8..11), with weight `Cnk(11 - j, x + 1)`, then encodes the
order of `edge4` against targets `j + 8`. -/
def get_FRtoBR (c : CubieCube) : Nat :=
  match scanPre (fun v => 8 ≤ v && v ≤ 11)
    (c.ep.enum.reverse.map fun p => (11 - p.1, p.2)) 0 0 [] with
  | (a, sel) => 24 * a + encPerm (fun j => j + 8) [3, 2, 1] sel 0

/-- `set_FRtoBR` (lines 216-244): sentinel `DB = 7`, slice edges `[8,9,10,11]`
permuted by `b = idx % 24`, placed ascending with weight `Cnk(11 - j, x + 1)`
at list index `3 - x`, remaining positions filled with `[0..7]`. -/
def set_FRtoBR (c : CubieCube) (idx : Nat) : CubieCube :=
  let sliceEdge := genPerm [1, 2, 3] [8, 9, 10, 11] (idx % 24)
  let ep1 := placeLoop (fun j => 11 - j) (fun x => 3 - x) sliceEdge
    [0, 1, 2, 3, 4, 5, 6, 7, 8, 9, 10, 11] (List.replicate 12 7) (idx / 24) 4
  { c with ep := fillOther 7 ep1 [0, 1, 2, 3, 4, 5, 6, 7] }

/-- `corner_parity` (lines 248-255): inversion count of `cp` modulo 2,
written as the source's double loop over pairs `j < i`. -/
def corner_parity (c : CubieCube) : Nat :=
  ((List.range 8).foldl
    (fun s i => s + (List.range i).countP (fun j => c.cp.getD i 0 < c.cp.getD j 0)) 0) % 2

/-- `get_URFtoDLF` (lines 257-273): combination of the positions holding
corners 0..5 (ascending scan, weight `Cnk(j, x + 1)`) and the order of
`corner6` (loop `j = 5..1`). -/
def get_URFtoDLF (c : CubieCube) : Nat :=
  match scanApp (fun v => v ≤ 5) c.cp.enum 0 0 [] with
  | (a, sel) => 720 * a + encPerm id [5, 4, 3, 2, 1] sel 0

/-- `set_URFtoDLF` (lines 275-304): sentinel `DRB = 7`, `corner6` permuted by
`b` over `j = 1..5`, placed descending from position 7, others `[DBL, DRB]`. -/
def set_URFtoDLF (c : CubieCube) (idx : Nat) : CubieCube :=
  let corner6 := genPerm [1, 2, 3, 4, 5] [0, 1, 2, 3, 4, 5] (idx % 720)
  let cp1 := placeLoop id id corner6 [7, 6, 5, 4, 3, 2, 1, 0]
    (List.replicate 8 7) (idx / 720) 6
  { c with cp := fillOther 7 cp1 [6, 7] }

/-- `get_URtoUL` (lines 306-321). -/
def get_URtoUL (c : CubieCube) : Nat :=
  match scanApp (fun v => v ≤ 2) c.ep.enum 0 0 [] with
  | (a, sel) => 6 * a + encPerm id [2, 1] sel 0

/-- `set_URtoUL` (lines 323-345): sentinel `BR = 11` is left in the
unused positions (no fill pass). -/
def set_URtoUL (c : CubieCube) (idx : Nat) : CubieCube :=
  let edge3 := genPerm [1, 2] [0, 1, 2] (idx % 6)
  let ep1 := placeLoop id id edge3 [11, 10, 9, 8, 7, 6, 5, 4, 3, 2, 1, 0]
    (List.replicate 12 11) (idx / 6) 3
  { c with ep := ep1 }

/-- `get_UBtoDF` (lines 347-362): edges 3..5, order targets `j + UB = j + 3`. -/
def get_UBtoDF (c : CubieCube) : Nat :=
  match scanApp (fun v => 3 ≤ v && v ≤ 5) c.ep.enum 0 0 [] with
  | (a, sel) => 6 * a + encPerm (fun j => j + 3) [2, 1] sel 0

/-- `set_UBtoDF` (lines 364-386). -/
def set_UBtoDF (c : CubieCube) (idx : Nat) : CubieCube :=
  let edge3 := genPerm [1, 2] [3, 4, 5] (idx % 6)
  let ep1 := placeLoop id id edge3 [11, 10, 9, 8, 7, 6, 5, 4, 3, 2, 1, 0]
    (List.replicate 12 11) (idx / 6) 3
  { c with ep := ep1 }

/-- `get_URtoDF` (lines 388-403). -/
def get_URtoDF (c : CubieCube) : Nat :=
  match scanApp (fun v => v ≤ 5) c.ep.enum 0 0 [] with
  | (a, sel) => 720 * a + encPerm id [5, 4, 3, 2, 1] sel 0

/-- `set_URtoDF` (lines 405-434): sentinel `BR = 11`, others
`[DL, DB, FR, FL, BL, BR] = [6, 7, 8, 9, 10, 11]`. -/
def set_URtoDF (c : CubieCube) (idx : Nat) : CubieCube :=
  let edge6 := genPerm [1, 2, 3, 4, 5] [0, 1, 2, 3, 4, 5] (idx % 720)
  let ep1 := placeLoop id id edge6 [11, 10, 9, 8, 7, 6, 5, 4, 3, 2, 1, 0]
    (List.replicate 12 11) (idx / 720) 6
  { c with ep := fillOther 11 ep1 [6, 7, 8, 9, 10, 11] }

-- =============================================================
-- verify (solver_kociemba.py lines 468-507)
-- =============================================================

/-- Inversion count of the edge permutation used by `verify`
(lines 499-503), same double loop as `corner_parity` over 12 entries. -/
def edge_inversions (c : CubieCube) : Nat :=
  (List.range 12).foldl
    (fun s i => s + (List.range i).countP (fun j => c.ep.getD i 0 < c.ep.getD j 0)) 0

/-- `CubieCube.verify` (lines 468-507): -2 bad corner multiset, -1 bad edge
multiset, -5 twist sum, -3 flip sum, -6 parity mismatch, 0 OK. -/
def verify (c : CubieCube) : Int :=
  if ¬ (c.cp.all (fun v => v ≤ 7) && (List.range 8).all (fun v => c.cp.count v = 1)) then -2
  else if ¬ (c.ep.all (fun v => v ≤ 11) && (List.range 12).all (fun v => c.ep.count v = 1)) then -1
  else if c.co.sum % 3 ≠ 0 then -5
  else if c.eo.sum % 2 ≠ 0 then -3
  else if edge_inversions c % 2 ≠ corner_parity c then -6
  else 0

-- =============================================================
-- Facelet model (solver_kociemba.py lines 55-77 and 436-611)
-- =============================================================

def CORNER_FACELET : List (List Nat) :=
  [[8, 9, 20], [6, 18, 38], [0, 36, 47], [2, 45, 11],
   [29, 26, 15], [27, 44, 24], [33, 53, 42], [35, 17, 51]]

def EDGE_FACELET : List (List Nat) :=
  [[5, 10], [7, 19], [3, 37], [1, 46], [32, 16], [28, 25],
   [30, 43], [34, 52], [23, 12], [21, 41], [50, 39], [48, 14]]

def CORNER_COLOR : List (List Nat) :=
  [[0, 1, 2], [0, 2, 4], [0, 4, 5], [0, 5, 1],
   [3, 2, 1], [3, 4, 2], [3, 5, 4], [3, 1, 5]]

def EDGE_COLOR : List (List Nat) :=
  [[0, 1], [0, 2], [0, 4], [0, 5], [3, 1], [3, 2],
   [3, 4], [3, 5], [2, 1], [2, 4], [5, 4], [5, 1]]

/-- `CubieCube.to_facecube` (lines 436-466) as the 54-entry facelet list:
centers fixed, then each corner's three stickers rotated by `co`, then each
edge's two stickers rotated by `eo`. -/
def to_facecube (c : CubieCube) : List Nat :=
  let f0 := ((((((List.replicate 54 0).set 4 0).set 13 1).set 22 2).set 31 3).set 40 4).set 49 5
  let f1 := (List.range 8).foldl (fun f i =>
    let j := c.cp.getD i 0
    let ori := c.co.getD i 0
    (List.range 3).foldl
      (fun f n => f.set ((CORNER_FACELET.getD i []).getD ((n + ori) % 3) 0)
        ((CORNER_COLOR.getD j []).getD n 0)) f) f0
  (List.range 12).foldl (fun f i =>
    let j := c.ep.getD i 0
    let ori := c.eo.getD i 0
    (List.range 2).foldl
      (fun f n => f.set ((EDGE_FACELET.getD i []).getD ((n + ori) % 2) 0)
        ((EDGE_COLOR.getD j []).getD n 0)) f) f1

/-- `FaceCube.to_cubie_cube` (lines 578-611): for each corner slot the first
sticker holding U or D fixes the orientation (the loop variable stays 2 when
none does), the other two stickers identify the corner; each edge slot is
matched against both sticker orders.  Unmatched slots keep the constructor
defaults, exactly as in the source. -/
def to_cubie_cube (f : List Nat) : CubieCube :=
  let corner := fun i =>
    let cf := CORNER_FACELET.getD i []
    let ori := (((List.range 3).find? fun n =>
      let cres := f.getD (cf.getD n 0) 0
      cres = 0 || cres = 3)).getD 2
    let col1 := f.getD (cf.getD ((ori + 1) % 3) 0) 0
    let col2 := f.getD (cf.getD ((ori + 2) % 3) 0) 0
    match (List.range 8).find? (fun j =>
        col1 = (CORNER_COLOR.getD j []).getD 1 0 &&
        col2 = (CORNER_COLOR.getD j []).getD 2 0) with
    | some j => (j, ori % 3)
    | none => (i, 0)
  let edge := fun i =>
    let ef := EDGE_FACELET.getD i []
    let c0 := f.getD (ef.getD 0 0) 0
    let c1 := f.getD (ef.getD 1 0) 0
    match (List.range 12).find? (fun j =>
        (c0 = (EDGE_COLOR.getD j []).getD 0 0 && c1 = (EDGE_COLOR.getD j []).getD 1 0) ||
        (c0 = (EDGE_COLOR.getD j []).getD 1 0 && c1 = (EDGE_COLOR.getD j []).getD 0 0)) with
    | some j =>
      if c0 = (EDGE_COLOR.getD j []).getD 0 0 && c1 = (EDGE_COLOR.getD j []).getD 1 0
      then (j, 0) else (j, 1)
    | none => (i, 0)
  { cp := (List.range 8).map fun i => (corner i).1
    co := (List.range 8).map fun i => (corner i).2
    ep := (List.range 12).map fun i => (edge i).1
    eo := (List.range 12).map fun i => (edge i).2 }


/-- `COLORS` (line 37) as a partial map; `none` models a `KeyError`. -/
def COLORS (ch : Char) : Option Nat :=
  if ch = 'U' then some 0
  else if ch = 'R' then some 1
  else if ch = 'F' then some 2
  else if ch = 'D' then some 3
  else if ch = 'L' then some 4
  else if ch = 'B' then some 5
  else none

def COLOR_NAMES : List String := ["U", "R", "F", "D", "L", "B"]

/-- `FaceCube.to_string` (lines 573-576). -/
def facelets_to_string (f : List Nat) : String :=
  String.mk (f.map fun cres => "URFDLB".data.getD cres 'U')

-- =============================================================
-- Pruning-table nybble accessors
-- =============================================================

/-- `get_pruning` (solver_kociemba.py lines 618-623; kociemba_tables.py
lines 11-14 is the same code): low nybble of byte `index >> 1` for even
`index`, high nybble for odd. -/
def get_pruning (table : List Nat) (index : Nat) : Nat :=
  if index % 2 = 0 then table.getD (index / 2) 0 &&& 15
  else (table.getD (index / 2) 0 >>> 4) &&& 15

/-- `set_pruning` (solver_kociemba.py lines 626-632; kociemba_tables.py
lines 17-22 is the same code): masked read-modify-write of one nybble. -/
def set_pruning (table : List Nat) (index value : Nat) : List Nat :=
  let idx := index / 2
  if index % 2 = 0 then table.set idx ((table.getD idx 0 &&& 240) ||| (value &&& 15))
  else table.set idx ((table.getD idx 0 &&& 15) ||| ((value &&& 15) <<< 4))

/-- The phase-2 move-index tuple `phase2_moves = (0, 1, 2, 4, 7, 9, 10, 11, 13, 16)`
used by the phase-2 pruning BFS of solver_kociemba.py (lines 969 and 1002)
and kociemba_tables.py (lines 376 and 407). -/
def phase2_moves : List Nat := [0, 1, 2, 4, 7, 9, 10, 11, 13, 16]

-- =============================================================
-- kociemba_pure.py variants
-- =============================================================

/-- The list `[3, 5, 6, 8, 12, 14, 15, 17]` of kociemba_pure.py lines 891 and
916, against which the phase-2 pruning BFS of that file tests each move index
(`if j in [...]` inside `for j in range(18)`). -/
def pure_phase2_filter : List Nat := [3, 5, 6, 8, 12, 14, 15, 17]

/-- The move indices the kociemba_pure phase-2 BFS actually expands through:
the members of `range(18)` passing the `j in [...]` test. -/
def pure_phase2_expanded : List Nat :=
  (List.range 18).filter (fun j => j ∈ pure_phase2_filter)

/-- `get_pruning` of kociemba_pure.py (lines 574-579): same nybble layout,
the odd case written as `(byte & 0xf0) >> 4`. -/
def pure_get_pruning (table : List Nat) (index : Nat) : Nat :=
  if index % 2 = 0 then table.getD (index / 2) 0 &&& 15
  else (table.getD (index / 2) 0 &&& 240) >>> 4

/-- `set_pruning` of kociemba_pure.py (lines 582-587): `table[i//2] &= mask`,
an AND-only write (correct only while the addressed nybble still holds 0xf). -/
def pure_set_pruning (table : List Nat) (index value : Nat) : List Nat :=
  if index % 2 = 0 then
    table.set (index / 2) (table.getD (index / 2) 0 &&& (240 ||| value))
  else
    table.set (index / 2) (table.getD (index / 2) 0 &&& (15 ||| (value <<< 4)))

/-- Rotation-count loop of kociemba_pure's `get_URFtoDLF` (lines 283-288):
`while corner6[j] != j: rotate_left(corner6, j, 5)`, rotating the window
`[j..5]` (not `[0..j]`).  Fuel `6 - j` dominates the count whenever the
target occurs in the window. -/
def pure_rotCount (t j : Nat) : Nat → List Nat → Nat × List Nat
  | 0, sel => (0, sel)
  | fuel + 1, sel =>
    if sel.getD j 0 = t then (0, sel)
    else
      match pure_rotCount t j fuel (rotate_left sel j 5) with
      | (k, s) => (k + 1, s)

/-- Permutation-index loop of kociemba_pure's `get_URFtoDLF`
(lines 283-288): `for j in range(5): ...; b = (j + 1) * b + k`, ascending. -/
def pure_encPerm : List Nat → List Nat → Nat → Nat
  | [], _, b => b
  | j :: js, sel, b =>
    match pure_rotCount j j (6 - j) sel with
    | (k, sel') => pure_encPerm js sel' ((j + 1) * b + k)

/-- `CubieCube.get_URFtoDLF` of kociemba_pure.py (lines 273-289): the
combination scan is as in solver_kociemba, but the permutation index is
accumulated ascending over `j = 0..4` with window `[j..5]` rotations. -/
def pure_get_URFtoDLF (c : CubieCube) : Nat :=
  match scanApp (fun v => v ≤ 5) c.cp.enum 0 0 [] with
  | (a, sel) => 720 * a + pure_encPerm [0, 1, 2, 3, 4] sel 0

/-- `CubieCube.set_URFtoDLF` of kociemba_pure.py (lines 291-319): as the
solver_kociemba version except the permutation-generation loop runs
`for j in range(5, -1, -1)` (descending, including `j = 0`). -/
def pure_set_URFtoDLF (c : CubieCube) (idx : Nat) : CubieCube :=
  let corner6 := genPerm [5, 4, 3, 2, 1, 0] [0, 1, 2, 3, 4, 5] (idx % 720)
  let cp1 := placeLoop id id corner6 [7, 6, 5, 4, 3, 2, 1, 0]
    (List.replicate 8 7) (idx / 720) 6
  { c with cp := fillOther 7 cp1 [6, 7] }

/-- `CubieCube.verify` of kociemba_pure.py (lines 451-473): only the
orientation sums and the permutation-parity comparison are checked. -/
def pure_verify (c : CubieCube) : Int :=
  if c.co.sum % 3 ≠ 0 then -5
  else if c.eo.sum % 2 ≠ 0 then -3
  else if edge_inversions c % 2 ≠ corner_parity c then -6
  else 0

-- =============================================================
-- Validation / early-return prefix of the solve entry points
-- =============================================================

/-- Outcome of the part of `Search.solve` that runs before the search loop. -/
inductive SolvePre where
  | err (msg : String)
  | solvedEmpty
  | search (cc : CubieCube)
  deriving DecidableEq, Repr

/-- An apostrophe, for building the source's quoted error messages. -/
def squote : String := String.singleton (Char.ofNat 39)

/-- The validation and early-return prefix of `Search.solve`
(solver_kociemba.py lines 1081-1127); `SearchFast.solve`
(solver_kociemba_fast.py lines 571-612) is line-for-line identical up to and
including the solved test, so this models both.  `err m` is `return m`,
`solvedEmpty` is the `return ""` taken when `flip`, `twist`, `slice`,
`FRtoBR`, `URFtoDLF` and `parity` are all zero (the source tests no other
coordinate), and `search cc` marks that the search loop would run. -/
def solve_pre (cube_string : String) : SolvePre :=
  let cs := cube_string.data
  if cs.length ≠ 54 then .err "Error: cubestring doit faire 54 caractères"
  else
    match cs.find? (fun ch => (COLORS ch).isNone) with
    | some ch => .err ("Error: caractère invalide " ++ squote ++ String.singleton ch ++ squote)
    | none =>
      match (List.range 6).find? (fun i => cs.countP (fun ch => COLORS ch = some i) ≠ 9) with
      | some i => .err ("Error: nombre incorrect de " ++ squote ++ COLOR_NAMES.getD i "" ++ squote)
      | none =>
        let cc := to_cubie_cube (cs.map fun ch => (COLORS ch).getD 0)
        let e := verify cc
        if e = -1 then .err "Error: arête incorrecte"
        else if e = -2 then .err "Error: coin incorrect"
        else if e = -3 then .err "Error: flip incorrect"
        else if e = -5 then .err "Error: twist incorrect"
        else if e = -6 then .err "Error: parité incorrecte"
        else
          if get_flip cc = 0 ∧ get_twist cc = 0 ∧ get_FRtoBR cc / 24 = 0 ∧
              get_FRtoBR cc = 0 ∧ get_URFtoDLF cc = 0 ∧ corner_parity cc = 0 then
            .solvedEmpty
          else .search cc

/-- Outcome of the part of kociemba_pure's `Search.solve` that runs before
its search loop; `exn` marks an exception escaping the API. -/
inductive PureSolvePre where
  | err (msg : String)
  | exn
  | search (cc : CubieCube)
  deriving DecidableEq, Repr

/-- The validation prefix of kociemba_pure.py `Search.solve`
(lines 964-997): the `try` block counts colors of the first 54 characters,
returning `"Error 1"` on any `KeyError`/`IndexError` or wrong count;
`FaceCube(facelets)` then evaluates `COLORS[c]` on every character of the
whole string, so an invalid character at position 54 or later raises an
uncaught `KeyError` (`exn`); `verify` failures return `f"Error {abs(s)}"`.
This variant has no solved-cube early return. -/
def pure_solve_pre (facelets : String) : PureSolvePre :=
  let cs := facelets.data
  if cs.length < 54 ∨ (cs.take 54).any (fun ch => (COLORS ch).isNone) then .err "Error 1"
  else if ¬ ((List.range 6).all fun i =>
      (cs.take 54).countP (fun ch => COLORS ch = some i) = 9) then .err "Error 1"
  else if cs.any (fun ch => (COLORS ch).isNone) then .exn
  else
    let cc := to_cubie_cube (cs.map fun ch => (COLORS ch).getD 0)
    let s := pure_verify cc
    if s ≠ 0 then .err ("Error " ++ toString s.natAbs)
    else .search cc

/-- The generator word R U\' R U R U R U\' R\' U\' R2 (a Ua permutation),
with each quarter-turn spelled out: it cycles the three edges UR, UF, UL and
moves no other cubie. -/
def uaWord : List Nat :=
  [1, 0, 0, 0, 1, 0, 1, 0, 1, 0, 0, 0, 1, 1, 1, 0, 0, 0, 1, 1]


-- =============================================================
-- Claim theorems (counterexample evaluations)
-- =============================================================

/-- Claim C2: the spec requires every variant's phase-2 pruning BFS to expand
states only through the ten G1-preserving move indices 0, 1, 2, 4, 7, 9, 10,
11, 13, 16.  solver_kociemba.py and kociemba_tables.py use exactly that
tuple, but kociemba_pure.py's two phase-2 table generators test
`j in [3, 5, 6, 8, 12, 14, 15, 17]` and therefore expand through exactly the
eight complementary quarter-turn indices (R, R\', F, F\', L, L\', B, B\'),
none of which is G1-preserving: index 3 is a quarter turn of R, which already
changes the twist coordinate of the solved cube.  This theorem evaluates the
code at the failing move indices. -/
theorem claim2_pure_phase2_filter_is_complement :
    phase2_moves = [0, 1, 2, 4, 7, 9, 10, 11, 13, 16] ∧
    pure_phase2_expanded = [3, 5, 6, 8, 12, 14, 15, 17] ∧
    (∀ m ∈ pure_phase2_expanded, m ∉ phase2_moves) ∧
    (0 ∈ phase2_moves ∧ 0 ∉ pure_phase2_expanded) ∧
    (3 ∈ pure_phase2_expanded ∧ get_twist (apply_gen solvedCube 1) ≠ 0) := by
  decide

/-- Claim C3: the spec requires `get_URFtoDLF`/`set_URFtoDLF` of
kociemba_pure's `CubieCube` to be mutually inverse on 0..20159, but that
variant's loop bounds differ from the corrected form and the round trip
already fails at `v = 1`, returning 120; solver_kociemba's codec returns 1
on the same input. -/
theorem claim3_pure_URFtoDLF_roundtrip_fails_at_one :
    pure_get_URFtoDLF (pure_set_URFtoDLF solvedCube 1) = 120 ∧
    (120 : Nat) ≠ 1 ∧
    get_URFtoDLF (set_URFtoDLF solvedCube 1) = 1 := by
  decide

/-- Claim C1: the word `uaWord` (R U\' R U R U R U\' R\' U\' R2 spelled as
quarter turns) reaches from solved a state `s` that merely 3-cycles the edges
UR, UF, UL; `s` is not solved, yet `solve` on `to_facecube(s)` takes the
early `return ""` of Search.solve (solver_kociemba.py lines 1123-1127;
identically SearchFast.solve lines 609-612) because that test omits the
URtoDF coordinate — so the returned move sequence is empty and its replay
yields the solved cube, not `s`. -/
theorem claim1_solve_returns_empty_on_reachable_unsolved_state :
    replay uaWord ≠ solvedCube ∧
    solve_pre (facelets_to_string (to_facecube (replay uaWord))) = SolvePre.solvedEmpty ∧
    replay [] = solvedCube := by
  decide

/-- Claim C4: `solve` must return `""` only for the solved cube, yet the
state reached by `uaWord` is a valid cube (its facelet string passes every
validation step, `verify = 0`) whose flip, twist, slice, FRtoBR, URFtoDLF
and parity coordinates are all zero while URtoDF is 4 — and `solve` returns
`""` for it. -/
theorem claim4_solve_empty_not_only_for_solved :
    (let cc := replay uaWord
     get_flip cc = 0 ∧ get_twist cc = 0 ∧ get_FRtoBR cc / 24 = 0 ∧
     get_FRtoBR cc = 0 ∧ get_URFtoDLF cc = 0 ∧ corner_parity cc = 0 ∧
     get_URtoDF cc = 4 ∧ verify cc = 0 ∧ cc ≠ solvedCube) ∧
    solve_pre (facelets_to_string (to_facecube (replay uaWord))) = SolvePre.solvedEmpty := by
  decide

/-- Claim C6: the spec requires inputs whose center facelets differ from
U, R, F, D, L, B to be rejected with an error before any search.  Neither
Search.solve nor SearchFast.solve checks the centers: the solved string with
the U and R centers (indices 4 and 13) swapped is a 54-character string over
the move alphabet that passes validation and takes the `return ""` branch
instead of returning an error. -/
theorem claim6_centers_not_validated :
    (let s := "UUUURUUUURRRRURRRRFFFFFFFFFDDDDDDDDDLLLLLLLLLBBBBBBBBB"
     s.data.getD 4 'U' = 'R' ∧ s.data.getD 13 'R' = 'U' ∧
     s.data.all (fun ch => (COLORS ch).isSome) = true ∧
     solve_pre s = SolvePre.solvedEmpty) := by
  decide

/-- Claim C7: the spec requires every non-solution return of every solve
entry point to be a string beginning with `"Error: "` and no exception to
cross the API.  kociemba_pure's `Search.solve` returns `"Error 1"` (no
colon) for the all-U input, and its `FaceCube` constructor raises an uncaught
`KeyError` when a character after position 53 is invalid even though
validation only examined the first 54 characters. -/
theorem claim7_pure_error_strings_lack_colon :
    pure_solve_pre (String.mk (List.replicate 54 'U')) = PureSolvePre.err "Error 1" ∧
    "Error: ".data.isPrefixOf "Error 1".data = false ∧
    pure_solve_pre "UUUUUUUUURRRRRRRRRFFFFFFFFFDDDDDDDDDLLLLLLLLLBBBBBBBBBX" =
      PureSolvePre.exn := by
  decide

/-- Claim C10 counterexample: kociemba_pure's `set_pruning` writes with `&=`
only, so on a table whose byte is 0 the written nybble reads back as 0, not
the stored value 5; the claim's universal set/get law fails for that
variant. -/
theorem claim10_pure_set_pruning_fails_on_zero_byte :
    pure_get_pruning (pure_set_pruning [0] 0 5) 0 = 0 ∧ (0 : Nat) ≠ 5 := by
  decide


set_option maxRecDepth 100000 in
/-- Byte-level facts behind the nybble accessors, checked for all byte and
nybble values. -/
theorem byteNybbleFacts : ∀ x < 256, ∀ v < 16,
    ((x &&& 240) ||| (v &&& 15)) &&& 15 = v ∧
    (((x &&& 240) ||| (v &&& 15)) >>> 4) &&& 15 = (x >>> 4) &&& 15 ∧
    (((x &&& 15) ||| ((v &&& 15) <<< 4)) >>> 4) &&& 15 = v ∧
    ((x &&& 15) ||| ((v &&& 15) <<< 4)) &&& 15 = x &&& 15 ∧
    x &&& 15 = x % 16 ∧
    (x >>> 4) &&& 15 = x / 16 % 16 ∧
    (x &&& 15 = 15 → (x &&& (240 ||| v)) &&& 15 = v) ∧
    ((x &&& (240 ||| v)) &&& 240) >>> 4 = (x &&& 240) >>> 4 ∧
    ((x &&& 240) >>> 4 = 15 → ((x &&& (15 ||| (v <<< 4))) &&& 240) >>> 4 = v) ∧
    (x &&& (15 ||| (v <<< 4))) &&& 15 = x &&& 15 := by
  decide

/-- Index of the nybble sharing a byte with `index` (low bit flipped). -/
def companion (index : Nat) : Nat :=
  if index % 2 = 0 then index + 1 else index - 1

/-- Claim C10 as amended: for every byte table, the solver_kociemba /
kociemba_tables accessors obey the set/get law, preserve the companion
nybble and all other bytes, and `get_pruning` reads the low nybble of byte
`i / 2` for even `i` and the high nybble for odd `i`; kociemba_pure's
AND-only `set_pruning` obeys the same read-back law provided the addressed
nybble currently holds 0xf (as in its BFS usage over 0xff-initialized
tables) and preserves the companion nybble and other bytes unconditionally. -/
theorem claim10_amended_nybble_accessors (t : List Nat) (i v : Nat)
    (hlen : i / 2 < t.length) (hbytes : ∀ b ∈ t, b < 256) (hv : v ≤ 15) :
    get_pruning (set_pruning t i v) i = v ∧
    get_pruning (set_pruning t i v) (companion i) = get_pruning t (companion i) ∧
    (∀ j, j ≠ i / 2 → (set_pruning t i v).getD j 0 = t.getD j 0) ∧
    get_pruning t i = t.getD (i / 2) 0 / 16 ^ (i % 2) % 16 ∧
    (pure_get_pruning t i = 15 → pure_get_pruning (pure_set_pruning t i v) i = v) ∧
    pure_get_pruning (pure_set_pruning t i v) (companion i) = pure_get_pruning t (companion i) ∧
    (∀ j, j ≠ i / 2 → (pure_set_pruning t i v).getD j 0 = t.getD j 0) := by
  have hx : t.getD (i / 2) 0 < 256 := by
    rw [List.getD_eq_getElem t 0 hlen]
    exact hbytes _ (List.getElem_mem hlen)
  obtain ⟨f1, f2, f3, f4, f5, f6, f7, f8, f9, f10⟩ :=
    byteNybbleFacts (t.getD (i / 2) 0) hx v (by omega)
  have hgetset : ∀ y, (t.set (i / 2) y).getD (i / 2) 0 = y := by
    intro y
    rw [List.getD_eq_getElem _ 0 (by simpa using hlen), List.getElem_set_self]
  have hgetset_ne : ∀ y j, j ≠ i / 2 → (t.set (i / 2) y).getD j 0 = t.getD j 0 := by
    intro y j hj
    by_cases hjl : j < t.length
    · rw [List.getD_eq_getElem _ 0 (by simpa using hjl), List.getD_eq_getElem _ 0 hjl,
        List.getElem_set_ne (by omega)]
    · rw [List.getD_eq_default _ 0 (by simpa using hjl), List.getD_eq_default _ 0 (by omega)]
  rcases Nat.mod_two_eq_zero_or_one i with hpar | hpar
  · -- even index: the write lands in the low nybble
    have hnot : ¬ ((i + 1) % 2 = 0) := by omega
    have hc2 : (i + 1) / 2 = i / 2 := by omega
    have hcomp : companion i = i + 1 := by rw [companion, if_pos hpar]
    have hsp : set_pruning t i v = t.set (i / 2) ((t.getD (i / 2) 0 &&& 240) ||| (v &&& 15)) := by
      rw [set_pruning, if_pos hpar]
    have hpsp : pure_set_pruning t i v = t.set (i / 2) (t.getD (i / 2) 0 &&& (240 ||| v)) := by
      rw [pure_set_pruning, if_pos hpar]
    refine ⟨?_, ?_, ?_, ?_, ?_, ?_, ?_⟩
    · rw [hsp, get_pruning, if_pos hpar, hgetset]
      exact f1
    · rw [hcomp, hsp, get_pruning, if_neg hnot, hc2, hgetset,
        get_pruning, if_neg hnot, hc2]
      exact f2
    · intro j hj
      rw [hsp]
      exact hgetset_ne _ j hj
    · rw [get_pruning, if_pos hpar, hpar, pow_zero, Nat.div_one]
      exact f5
    · intro h15
      rw [pure_get_pruning, if_pos hpar] at h15
      rw [hpsp, pure_get_pruning, if_pos hpar, hgetset]
      exact f7 h15
    · rw [hcomp, hpsp, pure_get_pruning, if_neg hnot, hc2, hgetset,
        pure_get_pruning, if_neg hnot, hc2]
      exact f8
    · intro j hj
      rw [hpsp]
      exact hgetset_ne _ j hj
  · -- odd index: the write lands in the high nybble
    have hnot : ¬ (i % 2 = 0) := by omega
    have hc2 : (i - 1) / 2 = i / 2 := by omega
    have hzero : (i - 1) % 2 = 0 := by omega
    have hcomp : companion i = i - 1 := by rw [companion, if_neg hnot]
    have hsp : set_pruning t i v = t.set (i / 2) ((t.getD (i / 2) 0 &&& 15) ||| ((v &&& 15) <<< 4)) := by
      rw [set_pruning, if_neg hnot]
    have hpsp : pure_set_pruning t i v = t.set (i / 2) (t.getD (i / 2) 0 &&& (15 ||| (v <<< 4))) := by
      rw [pure_set_pruning, if_neg hnot]
    refine ⟨?_, ?_, ?_, ?_, ?_, ?_, ?_⟩
    · rw [hsp, get_pruning, if_neg hnot, hgetset]
      exact f3
    · rw [hcomp, hsp, get_pruning, if_pos hzero, hc2, hgetset,
        get_pruning, if_pos hzero, hc2]
      exact f4
    · intro j hj
      rw [hsp]
      exact hgetset_ne _ j hj
    · rw [get_pruning, if_neg hnot, hpar, pow_one]
      exact f6
    · intro h15
      rw [pure_get_pruning, if_neg hnot] at h15
      rw [hpsp, pure_get_pruning, if_neg hnot, hgetset]
      exact f9 h15
    · rw [hcomp, hpsp, pure_get_pruning, if_pos hzero, hc2, hgetset,
        pure_get_pruning, if_pos hzero, hc2]
      exact f10
    · intro j hj
      rw [hpsp]
      exact hgetset_ne _ j hj

/-- Witness for the amended claim C10 at the concrete table `[171, 205]`,
index 1, value 9. -/
theorem claim10_amended_nybble_accessors_witness :
    get_pruning (set_pruning [171, 205] 1 9) 1 = 9 ∧
    get_pruning (set_pruning [171, 205] 1 9) (companion 1) =
      get_pruning [171, 205] (companion 1) := by
  have h := claim10_amended_nybble_accessors [171, 205] 1 9 (by decide)
    (by decide) (by decide)
  exact ⟨h.1, h.2.1⟩


-- =============================================================
-- Inversion counts and permutation parity
-- =============================================================

/-- Structural inversion count: pairs whose earlier element is larger.  This
is the same quantity as the double loops of `corner_parity` and
`edge_inversions`; the bridge is `idx_inversions_eq_invCount`. -/
def invCount : List Nat → Nat
  | [] => 0
  | a :: l => l.countP (fun x => x < a) + invCount l

theorem foldl_add_sum (g : Nat → Nat) : ∀ (xs : List Nat) (acc : Nat),
    xs.foldl (fun s i => s + g i) acc = acc + (xs.map g).sum
  | [], acc => by simp
  | x :: xs, acc => by
    simp only [List.foldl_cons, List.map_cons, List.sum_cons, foldl_add_sum g xs]
    omega

theorem sum_map_add (f g : Nat → Nat) : ∀ xs : List Nat,
    (xs.map fun x => f x + g x).sum = (xs.map f).sum + (xs.map g).sum
  | [] => by simp
  | x :: xs => by
    simp only [List.map_cons, List.sum_cons, sum_map_add f g xs]
    omega

theorem sum_indicator_lt (a : Nat) : ∀ l : List Nat,
    ((List.range l.length).map fun i => if l.getD i 0 < a then 1 else 0).sum
      = l.countP (fun x => x < a)
  | [] => by simp
  | b :: l => by
    rw [List.length_cons, List.range_succ_eq_map, List.map_cons, List.sum_cons, List.map_map]
    have h1 : ((fun i => if (b :: l).getD i 0 < a then 1 else 0) ∘ Nat.succ)
        = fun i => if l.getD i 0 < a then 1 else 0 := by
      funext i
      simp [Function.comp, List.getD_cons_succ]
    rw [h1, sum_indicator_lt a l, List.countP_cons, List.getD_cons_zero]
    by_cases hb : b < a
    · simp only [hb, if_true, decide_eq_true_eq]
      exact Nat.add_comm _ _
    · simp [hb]

theorem idx_inversions_eq_invCount : ∀ l : List Nat,
    ((List.range l.length).map fun i =>
        (List.range i).countP (fun j => l.getD i 0 < l.getD j 0)).sum = invCount l
  | [] => by simp [invCount]
  | a :: l => by
    rw [List.length_cons, List.range_succ_eq_map, List.map_cons, List.sum_cons, List.map_map]
    have h1 : ((fun i => (List.range i).countP fun j =>
          (a :: l).getD i 0 < (a :: l).getD j 0) ∘ Nat.succ)
        = fun i => (if l.getD i 0 < a then 1 else 0)
            + (List.range i).countP (fun j => l.getD i 0 < l.getD j 0) := by
      funext i
      simp only [Function.comp_apply]
      rw [List.range_succ_eq_map, List.countP_cons, List.countP_map]
      have h2 : ((fun j => decide ((a :: l).getD (i + 1) 0 < (a :: l).getD j 0)) ∘ Nat.succ)
          = fun j => decide (l.getD i 0 < l.getD j 0) := by
        funext j
        simp [Function.comp, List.getD_cons_succ]
      rw [h2]
      simp only [List.getD_cons_succ, List.getD_cons_zero]
      by_cases hb : l.getD i 0 < a
      · simp [hb]
        exact Nat.add_comm _ _
      · simp [hb]
        exact Nat.add_comm _ _
    rw [h1, sum_map_add, sum_indicator_lt a l, idx_inversions_eq_invCount l]
    simp [invCount]

/-- `corner_parity` equals the structural inversion count mod 2. -/
theorem corner_parity_eq_invCount (c : CubieCube) (h : c.cp.length = 8) :
    corner_parity c = invCount c.cp % 2 := by
  rw [corner_parity, ← h, foldl_add_sum, Nat.zero_add, idx_inversions_eq_invCount]

/-- `edge_inversions` equals the structural inversion count. -/
theorem edge_inversions_eq_invCount (c : CubieCube) (h : c.ep.length = 12) :
    edge_inversions c = invCount c.ep := by
  rw [edge_inversions, ← h, foldl_add_sum, Nat.zero_add, idx_inversions_eq_invCount]


/-- Swapping two adjacent entries with the left one larger removes exactly
one inversion. -/
theorem invCount_adj_swap (x y : Nat) (hxy : y < x) : ∀ (u w : List Nat),
    invCount (u ++ x :: y :: w) = invCount (u ++ y :: x :: w) + 1
  | [], w => by
    have h1 : ¬ x < y := by omega
    simp only [List.nil_append, invCount, List.countP_cons, decide_eq_true_eq]
    simp only [hxy, h1, if_true, if_false]
    omega
  | cres :: u, w => by
    simp only [List.cons_append, List.append_eq, invCount]
    rw [invCount_adj_swap x y hxy u w]
    have hc : List.countP (fun v => v < cres) (u ++ x :: y :: w)
        = List.countP (fun v => v < cres) (u ++ y :: x :: w) := by
      simp only [List.countP_append, List.countP_cons]
      omega
    omega

/-- Every list of naturals is sorted or contains an adjacent descent. -/
theorem sorted_or_adj_desc : ∀ p : List Nat, List.Sorted (· ≤ ·) p ∨
    ∃ u x y w, p = u ++ x :: y :: w ∧ y < x
  | [] => Or.inl (by simp)
  | [x] => Or.inl (by simp)
  | x :: y :: t => by
    by_cases hxy : y < x
    · exact Or.inr ⟨[], x, y, t, rfl, hxy⟩
    · rcases sorted_or_adj_desc (y :: t) with hs | ⟨u, a, b, w, heq, hab⟩
      · left
        refine List.sorted_cons.mpr ⟨?_, hs⟩
        intro b hb
        rcases List.mem_cons.mp hb with rfl | hbt
        · omega
        · have := (List.sorted_cons.mp hs).1 b hbt
          omega
      · right
        exact ⟨x :: u, a, b, w, by rw [heq, List.cons_append], hab⟩

/-- `cp_new[i] = cp[b.cp[i]]`: reading a list through an index list. -/
def reindex (p l : List Nat) : List Nat := p.map fun i => l.getD i 0

theorem map_getD_range (l : List Nat) :
    (List.range l.length).map (fun i => l.getD i 0) = l := by
  apply List.ext_getElem
  · simp
  · intro i h1 h2
    simp only [List.getElem_map, List.getElem_range]
    exact (List.getD_eq_getElem l 0 h2).symm ▸ rfl

theorem reindex_range (l : List Nat) : reindex (List.range l.length) l = l :=
  map_getD_range l

theorem invCount_sorted : ∀ l : List Nat, List.Sorted (· ≤ ·) l → invCount l = 0
  | [], _ => rfl
  | a :: l, h => by
    have h1 := (List.sorted_cons.mp h).1
    have h2 := (List.sorted_cons.mp h).2
    simp only [invCount, invCount_sorted l h2]
    have hz : l.countP (fun x => x < a) = 0 := by
      rw [List.countP_eq_zero]
      intro b hb
      have := h1 b hb
      simp
      omega
    omega

/-- Reading a list with distinct entries through a permutation of its index
range adds the inversion parities. -/
theorem invCount_reindex : ∀ (N : Nat) (p l : List Nat), invCount p ≤ N →
    List.Perm p (List.range l.length) → l.Nodup →
    invCount (reindex p l) % 2 = (invCount p + invCount l) % 2 := by
  intro N
  induction N with
  | zero =>
    intro p l hN hp hl
    rcases sorted_or_adj_desc p with hs | ⟨u, x, y, w, rfl, hxy⟩
    · have hps : p = List.range l.length :=
        List.eq_of_perm_of_sorted hp hs (List.sorted_le_range _)
      subst hps
      rw [reindex_range, invCount_sorted _ (List.sorted_le_range _), Nat.zero_add]
    · rw [invCount_adj_swap x y hxy u w] at hN
      omega
  | succ n ih =>
    intro p l hN hp hl
    rcases sorted_or_adj_desc p with hs | ⟨u, x, y, w, rfl, hxy⟩
    · have hps : p = List.range l.length :=
        List.eq_of_perm_of_sorted hp hs (List.sorted_le_range _)
      subst hps
      rw [reindex_range, invCount_sorted _ (List.sorted_le_range _), Nat.zero_add]
    · have hswap := invCount_adj_swap x y hxy u w
      have hpp : List.Perm (u ++ x :: y :: w) (u ++ y :: x :: w) :=
        List.Perm.append_left u (List.Perm.swap y x w)
      have hp' : List.Perm (u ++ y :: x :: w) (List.range l.length) := hpp.symm.trans hp
      have hN' : invCount (u ++ y :: x :: w) ≤ n := by omega
      have hIH := ih (u ++ y :: x :: w) l hN' hp' hl
      have hxmem : x ∈ u ++ x :: y :: w := by simp
      have hymem : y ∈ u ++ x :: y :: w := by simp
      have hxlt : x < l.length := by
        have := hp.mem_iff.mp hxmem
        simpa [List.mem_range] using this
      have hylt : y < l.length := by
        have := hp.mem_iff.mp hymem
        simpa [List.mem_range] using this
      have hne : l.getD x 0 ≠ l.getD y 0 := by
        rw [List.getD_eq_getElem l 0 hxlt, List.getD_eq_getElem l 0 hylt]
        intro he
        have hxyeq : x = y := (List.Nodup.getElem_inj_iff hl).mp he
        omega
      have hr : reindex (u ++ x :: y :: w) l
          = reindex u l ++ l.getD x 0 :: l.getD y 0 :: reindex w l := by
        simp [reindex]
      have hr' : reindex (u ++ y :: x :: w) l
          = reindex u l ++ l.getD y 0 :: l.getD x 0 :: reindex w l := by
        simp [reindex]
      rw [hr'] at hIH
      rw [hr]
      rcases Nat.lt_or_ge (l.getD y 0) (l.getD x 0) with hlt | hge
      · have hsw2 := invCount_adj_swap (l.getD x 0) (l.getD y 0) hlt (reindex u l) (reindex w l)
        omega
      · have hlt2 : l.getD x 0 < l.getD y 0 := by omega
        have hsw2 := invCount_adj_swap (l.getD y 0) (l.getD x 0) hlt2 (reindex u l) (reindex w l)
        omega


theorem count_range_eq (n a : Nat) :
    (List.range n).count a = if a < n then 1 else 0 := by
  by_cases ha : a < n
  · rw [if_pos ha]
    exact List.count_eq_one_of_mem (List.nodup_range n) (List.mem_range.mpr ha)
  · rw [if_neg ha]
    exact List.count_eq_zero.mpr (fun hmem => ha (List.mem_range.mp hmem))

/-- The multiset conditions checked by `verify` say exactly that the list is
a permutation of `0..n-1`. -/
theorem perm_range_of_counts (n : Nat) (l : List Nat) (h1 : ∀ v ∈ l, v < n)
    (h2 : ∀ v, v < n → l.count v = 1) : List.Perm l (List.range n) := by
  rw [List.perm_iff_count]
  intro a
  rw [count_range_eq]
  by_cases ha : a < n
  · rw [if_pos ha, h2 a ha]
  · rw [if_neg ha]
    exact List.count_eq_zero.mpr (fun hmem => ha (h1 a hmem))

theorem counts_of_perm_range (n : Nat) (l : List Nat)
    (hp : List.Perm l (List.range n)) :
    (∀ v ∈ l, v < n) ∧ (∀ v, v < n → l.count v = 1) := by
  constructor
  · intro v hv
    exact List.mem_range.mp (hp.mem_iff.mp hv)
  · intro v hv
    rw [hp.count_eq, count_range_eq, if_pos hv]

theorem sum_map_mod3 (f : Nat → Nat) : ∀ xs : List Nat,
    (xs.map fun x => f x % 3).sum % 3 = (xs.map f).sum % 3
  | [] => rfl
  | x :: xs => by
    have := sum_map_mod3 f xs
    simp only [List.map_cons, List.sum_cons]
    omega

theorem sum_map_mod2 (f : Nat → Nat) : ∀ xs : List Nat,
    (xs.map fun x => f x % 2).sum % 2 = (xs.map f).sum % 2
  | [] => rfl
  | x :: xs => by
    have := sum_map_mod2 f xs
    simp only [List.map_cons, List.sum_cons]
    omega

/-- A map over `range n` that reads a length-`n` list through `getD` is the
map over the list itself. -/
theorem map_range_comp_getD (g : Nat → Nat) (p : List Nat) (n : Nat) (hp : p.length = n) :
    (List.range n).map (fun i => g (p.getD i 0)) = p.map g := by
  subst hp
  conv_rhs => rw [← map_getD_range p]
  rw [List.map_map]
  rfl

theorem sum_reindex_perm (p l : List Nat) (hp : List.Perm p (List.range l.length)) :
    (reindex p l).sum = l.sum := by
  have h1 : List.Perm (reindex p l) (reindex (List.range l.length) l) :=
    List.Perm.map _ hp
  rw [h1.sum_eq, reindex_range]

theorem sum_getD_range (l : List Nat) (n : Nat) (h : l.length = n) :
    ((List.range n).map fun i => l.getD i 0).sum = l.sum := by
  subst h
  rw [map_getD_range]


/-- `verify c = 0` unpacked into its five conditions. -/
theorem verify_eq_zero_iff (c : CubieCube) :
    verify c = 0 ↔
      ((c.cp.all (fun v => v ≤ 7) && (List.range 8).all (fun v => c.cp.count v = 1)) = true ∧
       (c.ep.all (fun v => v ≤ 11) && (List.range 12).all (fun v => c.ep.count v = 1)) = true ∧
       c.co.sum % 3 = 0 ∧ c.eo.sum % 2 = 0 ∧
       edge_inversions c % 2 = corner_parity c) := by
  rw [verify]
  constructor
  · intro hv
    split_ifs at hv with h1 h2 h3 h4 h5
    exact ⟨h1, h2, by omega, by omega, by omega⟩
  · rintro ⟨h1, h2, h3, h4, h5⟩
    rw [if_neg (not_not.mpr h1), if_neg (not_not.mpr h2), if_neg (by omega : ¬ c.co.sum % 3 ≠ 0),
      if_neg (by omega : ¬ c.eo.sum % 2 ≠ 0),
      if_neg (by omega : ¬ edge_inversions c % 2 ≠ corner_parity c)]

theorem perm_of_verify_checks (n m : Nat) (l : List Nat) (hmn : m + 1 = n)
    (h : (l.all (fun v => v ≤ m) && (List.range n).all (fun v => l.count v = 1)) = true) :
    List.Perm l (List.range n) := by
  rw [Bool.and_eq_true] at h
  obtain ⟨hA, hB⟩ := h
  apply perm_range_of_counts
  · intro v hv
    have := of_decide_eq_true (List.all_eq_true.mp hA v hv)
    omega
  · intro v hv
    exact of_decide_eq_true (List.all_eq_true.mp hB v (List.mem_range.mpr hv))

theorem verify_checks_of_perm (n m : Nat) (l : List Nat) (hmn : m + 1 = n)
    (hp : List.Perm l (List.range n)) :
    (l.all (fun v => v ≤ m) && (List.range n).all (fun v => l.count v = 1)) = true := by
  rw [Bool.and_eq_true]
  obtain ⟨hmem, hcnt⟩ := counts_of_perm_range n l hp
  constructor
  · rw [List.all_eq_true]
    intro v hv
    exact decide_eq_true (by have := hmem v hv; omega)
  · rw [List.all_eq_true]
    intro v hv
    exact decide_eq_true (hcnt v (List.mem_range.mp hv))

/-- Claim C8: validity is invariant under the multiplication law.  For every
cubie state whose orientation lists have the arities fixed by the data model
(8 corners, 12 edges — `verify` itself pins the permutation arities) and
which passes `verify`, multiplying by any of the six generators of
`MOVE_CUBE` again passes `verify`. -/
theorem claim8_multiply_preserves_verify (s g : CubieCube) (hg : g ∈ MOVE_CUBE)
    (hco : s.co.length = 8) (heo : s.eo.length = 12) (hv : verify s = 0) :
    verify (multiply s g) = 0 := by
  have hgfacts : List.Perm g.cp (List.range 8) ∧ List.Perm g.ep (List.range 12) ∧
      g.cp.length = 8 ∧ g.ep.length = 12 ∧ g.co.length = 8 ∧ g.eo.length = 12 ∧
      g.co.sum % 3 = 0 ∧ g.eo.sum % 2 = 0 ∧
      invCount g.cp % 2 = 1 ∧ invCount g.ep % 2 = 1 := by
    simp only [MOVE_CUBE, List.mem_cons, List.not_mem_nil, or_false] at hg
    rcases hg with rfl | rfl | rfl | rfl | rfl | rfl <;> refine ⟨by decide, by decide,
      by decide, by decide, by decide, by decide, by decide, by decide, by decide, by decide⟩
  obtain ⟨hgcp, hgep, hgcpl, hgepl, hgcol, hgeol, hgcos, hgeos, hgicp, hgiep⟩ := hgfacts
  rw [verify_eq_zero_iff] at hv
  obtain ⟨hcp, hep, hcos, heos, hpar⟩ := hv
  have hscp : List.Perm s.cp (List.range 8) := perm_of_verify_checks 8 7 s.cp rfl hcp
  have hsep : List.Perm s.ep (List.range 12) := perm_of_verify_checks 12 11 s.ep rfl hep
  have hscpl : s.cp.length = 8 := by
    have := hscp.length_eq
    simpa using this
  have hsepl : s.ep.length = 12 := by
    have := hsep.length_eq
    simpa using this
  have hscpnd : s.cp.Nodup := (hscp.nodup_iff).mpr (List.nodup_range 8)
  have hsepnd : s.ep.Nodup := (hsep.nodup_iff).mpr (List.nodup_range 12)
  -- components of the product
  have hcpmul : (multiply s g).cp = reindex g.cp s.cp := by
    have h0 : (multiply s g).cp = (List.range 8).map (fun i => s.cp.getD (g.cp.getD i 0) 0) := rfl
    rw [h0, map_range_comp_getD (fun v => s.cp.getD v 0) g.cp 8 hgcpl]
    rfl
  have hepmul : (multiply s g).ep = reindex g.ep s.ep := by
    have h0 : (multiply s g).ep = (List.range 12).map (fun i => s.ep.getD (g.ep.getD i 0) 0) := rfl
    rw [h0, map_range_comp_getD (fun v => s.ep.getD v 0) g.ep 12 hgepl]
    rfl
  have hcomul : (multiply s g).co =
      (List.range 8).map (fun i => (s.co.getD (g.cp.getD i 0) 0 + g.co.getD i 0) % 3) := rfl
  have heomul : (multiply s g).eo =
      (List.range 12).map (fun i => (s.eo.getD (g.ep.getD i 0) 0 + g.eo.getD i 0) % 2) := rfl
  -- permutation halves stay permutations
  have hmap8 : (List.range 8).map (fun i => s.cp.getD i 0) = s.cp := by
    rw [← hscpl]
    exact map_getD_range s.cp
  have hmap12 : (List.range 12).map (fun i => s.ep.getD i 0) = s.ep := by
    rw [← hsepl]
    exact map_getD_range s.ep
  have hcp2 : List.Perm (reindex g.cp s.cp) s.cp := by
    have h1 := List.Perm.map (fun i => s.cp.getD i 0) hgcp
    rw [hmap8] at h1
    exact h1
  have hep2 : List.Perm (reindex g.ep s.ep) s.ep := by
    have h1 := List.Perm.map (fun i => s.ep.getD i 0) hgep
    rw [hmap12] at h1
    exact h1
  -- orientation sums
  have hcosum : (multiply s g).co.sum % 3 = 0 := by
    rw [hcomul]
    rw [sum_map_mod3 (fun i => s.co.getD (g.cp.getD i 0) 0 + g.co.getD i 0)]
    rw [sum_map_add (fun i => s.co.getD (g.cp.getD i 0) 0) (fun i => g.co.getD i 0)]
    rw [map_range_comp_getD (fun v => s.co.getD v 0) g.cp 8 hgcpl]
    have hsum1 : (g.cp.map fun v => s.co.getD v 0).sum = s.co.sum := by
      have : (g.cp.map fun v => s.co.getD v 0) = reindex g.cp s.co := rfl
      rw [this]
      apply sum_reindex_perm
      rw [hco]
      exact hgcp
    rw [hsum1, sum_getD_range g.co 8 hgcol]
    omega
  have heosum : (multiply s g).eo.sum % 2 = 0 := by
    rw [heomul]
    rw [sum_map_mod2 (fun i => s.eo.getD (g.ep.getD i 0) 0 + g.eo.getD i 0)]
    rw [sum_map_add (fun i => s.eo.getD (g.ep.getD i 0) 0) (fun i => g.eo.getD i 0)]
    rw [map_range_comp_getD (fun v => s.eo.getD v 0) g.ep 12 hgepl]
    have hsum1 : (g.ep.map fun v => s.eo.getD v 0).sum = s.eo.sum := by
      have : (g.ep.map fun v => s.eo.getD v 0) = reindex g.ep s.eo := rfl
      rw [this]
      apply sum_reindex_perm
      rw [heo]
      exact hgep
    rw [hsum1, sum_getD_range g.eo 12 hgeol]
    omega
  -- parity
  have hcplen' : (multiply s g).cp.length = 8 := by
    rw [hcpmul, reindex, List.length_map, hgcpl]
  have heplen' : (multiply s g).ep.length = 12 := by
    rw [hepmul, reindex, List.length_map, hgepl]
  have hicp : invCount ((multiply s g).cp) % 2 = (invCount g.cp + invCount s.cp) % 2 := by
    rw [hcpmul]
    apply invCount_reindex (invCount g.cp) g.cp s.cp (Nat.le_refl _) _ hscpnd
    rw [hscpl]
    exact hgcp
  have hiep : invCount ((multiply s g).ep) % 2 = (invCount g.ep + invCount s.ep) % 2 := by
    rw [hepmul]
    apply invCount_reindex (invCount g.ep) g.ep s.ep (Nat.le_refl _) _ hsepnd
    rw [hsepl]
    exact hgep
  have hparmul : edge_inversions (multiply s g) % 2 = corner_parity (multiply s g) := by
    rw [edge_inversions_eq_invCount _ heplen', corner_parity_eq_invCount _ hcplen']
    rw [edge_inversions_eq_invCount s hsepl, corner_parity_eq_invCount s hscpl] at hpar
    omega
  rw [verify_eq_zero_iff]
  refine ⟨?_, ?_, hcosum, heosum, hparmul⟩
  · rw [hcpmul]
    exact verify_checks_of_perm 8 7 _ rfl (hcp2.trans hscp)
  · rw [hepmul]
    exact verify_checks_of_perm 12 11 _ rfl (hep2.trans hsep)

/-- Witness for claim C8: the state after one R turn passes `verify`, and
multiplying it by the F generator again passes `verify`. -/
theorem claim8_multiply_preserves_verify_witness :
    verify (multiply (apply_gen solvedCube 1) (MOVE_CUBE.getD 2 solvedCube)) = 0 :=
  claim8_multiply_preserves_verify (apply_gen solvedCube 1) (MOVE_CUBE.getD 2 solvedCube)
    (by decide) (by decide) (by decide) (by decide)


/-- Validity of a cubie state per the data model (spec section 3): fixed
arities, permutation halves, orientations in range with vanishing sums, and
equal permutation parities. -/
def SpecValid (c : CubieCube) : Prop :=
  c.cp.length = 8 ∧ c.co.length = 8 ∧ c.ep.length = 12 ∧ c.eo.length = 12 ∧
  List.Perm c.cp (List.range 8) ∧ List.Perm c.ep (List.range 12) ∧
  (∀ v ∈ c.co, v < 3) ∧ c.co.sum % 3 = 0 ∧
  (∀ v ∈ c.eo, v < 2) ∧ c.eo.sum % 2 = 0 ∧
  edge_inversions c % 2 = corner_parity c

instance (c : CubieCube) : Decidable (SpecValid c) := by
  unfold SpecValid
  infer_instance

theorem exists_eight (l : List Nat) (h : l.length = 8) :
    ∃ a0 a1 a2 a3 a4 a5 a6 a7, l = [a0, a1, a2, a3, a4, a5, a6, a7] := by
  obtain ⟨a0, l, rfl⟩ := List.exists_of_length_succ l h
  simp only [List.length_cons] at h
  obtain ⟨a1, l, rfl⟩ := List.exists_of_length_succ l (show l.length = 6 + 1 by omega)
  simp only [List.length_cons] at h
  obtain ⟨a2, l, rfl⟩ := List.exists_of_length_succ l (show l.length = 5 + 1 by omega)
  simp only [List.length_cons] at h
  obtain ⟨a3, l, rfl⟩ := List.exists_of_length_succ l (show l.length = 4 + 1 by omega)
  simp only [List.length_cons] at h
  obtain ⟨a4, l, rfl⟩ := List.exists_of_length_succ l (show l.length = 3 + 1 by omega)
  simp only [List.length_cons] at h
  obtain ⟨a5, l, rfl⟩ := List.exists_of_length_succ l (show l.length = 2 + 1 by omega)
  simp only [List.length_cons] at h
  obtain ⟨a6, l, rfl⟩ := List.exists_of_length_succ l (show l.length = 1 + 1 by omega)
  simp only [List.length_cons] at h
  obtain ⟨a7, l, rfl⟩ := List.exists_of_length_succ l (show l.length = 0 + 1 by omega)
  simp only [List.length_cons] at h
  have : l = [] := List.length_eq_zero.mp (by omega)
  subst this
  exact ⟨a0, a1, a2, a3, a4, a5, a6, a7, rfl⟩

theorem exists_twelve (l : List Nat) (h : l.length = 12) :
    ∃ a0 a1 a2 a3 a4 a5 a6 a7 a8 a9 a10 a11,
      l = [a0, a1, a2, a3, a4, a5, a6, a7, a8, a9, a10, a11] := by
  obtain ⟨a0, l, rfl⟩ := List.exists_of_length_succ l h
  simp only [List.length_cons] at h
  obtain ⟨a1, l, rfl⟩ := List.exists_of_length_succ l (show l.length = 10 + 1 by omega)
  simp only [List.length_cons] at h
  obtain ⟨a2, l, rfl⟩ := List.exists_of_length_succ l (show l.length = 9 + 1 by omega)
  simp only [List.length_cons] at h
  obtain ⟨a3, l, rfl⟩ := List.exists_of_length_succ l (show l.length = 8 + 1 by omega)
  simp only [List.length_cons] at h
  obtain ⟨a4, l, rfl⟩ := List.exists_of_length_succ l (show l.length = 7 + 1 by omega)
  simp only [List.length_cons] at h
  obtain ⟨a5, l, rfl⟩ := List.exists_of_length_succ l (show l.length = 6 + 1 by omega)
  simp only [List.length_cons] at h
  obtain ⟨a6, l, rfl⟩ := List.exists_of_length_succ l (show l.length = 5 + 1 by omega)
  simp only [List.length_cons] at h
  obtain ⟨a7, l, rfl⟩ := List.exists_of_length_succ l (show l.length = 4 + 1 by omega)
  simp only [List.length_cons] at h
  obtain ⟨a8, l, rfl⟩ := List.exists_of_length_succ l (show l.length = 3 + 1 by omega)
  simp only [List.length_cons] at h
  obtain ⟨a9, l, rfl⟩ := List.exists_of_length_succ l (show l.length = 2 + 1 by omega)
  simp only [List.length_cons] at h
  obtain ⟨a10, l, rfl⟩ := List.exists_of_length_succ l (show l.length = 1 + 1 by omega)
  simp only [List.length_cons] at h
  obtain ⟨a11, l, rfl⟩ := List.exists_of_length_succ l (show l.length = 0 + 1 by omega)
  simp only [List.length_cons] at h
  have : l = [] := List.length_eq_zero.mp (by omega)
  subst this
  exact ⟨a0, a1, a2, a3, a4, a5, a6, a7, a8, a9, a10, a11, rfl⟩

/-- Claim C9: four successive quarter turns of the same face are the
identity — for every valid cubie state `s` and every generator `g` of
`MOVE_CUBE`, `s · g · g · g · g = s`. -/
theorem claim9_four_quarter_turns_identity (s : CubieCube) (hs : SpecValid s) :
    ∀ g ∈ MOVE_CUBE, multiply (multiply (multiply (multiply s g) g) g) g = s := by
  obtain ⟨hcpl, hcol, hepl, heol, hcpp, hepp, hcob, hcos, heob, heos, hpar⟩ := hs
  obtain ⟨scp, sco, sep, seo⟩ := s
  obtain ⟨a0, a1, a2, a3, a4, a5, a6, a7, rfl⟩ := exists_eight scp hcpl
  obtain ⟨b0, b1, b2, b3, b4, b5, b6, b7, rfl⟩ := exists_eight sco hcol
  obtain ⟨c0, c1, c2, c3, c4, c5, c6, c7, c8, c9, c10, c11, rfl⟩ := exists_twelve sep hepl
  obtain ⟨d0, d1, d2, d3, d4, d5, d6, d7, d8, d9, d10, d11, rfl⟩ := exists_twelve seo heol
  simp only [List.mem_cons, forall_eq_or_imp, List.not_mem_nil] at hcob heob
  have hr8 : List.range 8 = [0, 1, 2, 3, 4, 5, 6, 7] := rfl
  have hr12 : List.range 12 = [0, 1, 2, 3, 4, 5, 6, 7, 8, 9, 10, 11] := rfl
  intro g hg
  simp only [MOVE_CUBE, List.mem_cons, List.not_mem_nil, or_false] at hg
  rcases hg with rfl | rfl | rfl | rfl | rfl | rfl <;>
    (simp only [multiply, corner_multiply, edge_multiply, hr8, hr12, List.map_cons,
      List.map_nil, List.getD_cons_zero, List.getD_cons_succ, CubieCube.mk.injEq,
      List.cons.injEq, and_true, true_and]
     omega)

/-- Witness for claim C9 at the state reached by one F turn and the
generator R. -/
theorem claim9_four_quarter_turns_identity_witness :
    multiply (multiply (multiply (multiply (apply_gen solvedCube 2)
      (MOVE_CUBE.getD 1 solvedCube)) (MOVE_CUBE.getD 1 solvedCube))
      (MOVE_CUBE.getD 1 solvedCube)) (MOVE_CUBE.getD 1 solvedCube) =
      apply_gen solvedCube 2 :=
  claim9_four_quarter_turns_identity (apply_gen solvedCube 2) (by decide)
    (MOVE_CUBE.getD 1 solvedCube) (by decide)

-- =============================================================
-- C5: combinadic correctness of the combination codecs
-- =============================================================

theorem cnkLoop_eq_choose : ∀ (k n : Nat), CnkLoop n k = Nat.choose n k := by
  intro k
  induction k with
  | zero => intro n; simp [CnkLoop]
  | succ k ih =>
    intro n
    rw [CnkLoop, ih n, ← Nat.choose_succ_right_eq, Nat.mul_div_cancel _ (Nat.succ_pos k)]

theorem cnk_eq_choose (n k : Nat) : Cnk n k = Nat.choose n k := by
  unfold Cnk
  split_ifs with h1 h2
  · exact (Nat.choose_eq_zero_of_lt h1).symm
  · rw [cnkLoop_eq_choose, Nat.choose_symm (Nat.le_of_not_lt h1)]
  · exact cnkLoop_eq_choose k n

/-- Combination scan that also reports the final running count `x`, used to
analyse `scanApp` and `scanPre`. -/
def scanFull (pred : Nat → Bool) : List (Nat × Nat) → Nat → Nat → List Nat → Nat × Nat × List Nat
  | [], x, a, sel => (x, a, sel)
  | (j, v) :: rest, x, a, sel =>
    if pred v then scanFull pred rest (x + 1) (a + Cnk j (x + 1)) (sel ++ [v])
    else scanFull pred rest x a sel

theorem scanApp_eq_scanFull (pred : Nat → Bool) :
    ∀ (ps : List (Nat × Nat)) (x a : Nat) (sel : List Nat),
    scanApp pred ps x a sel = ((scanFull pred ps x a sel).2.1, (scanFull pred ps x a sel).2.2) := by
  intro ps
  induction ps with
  | nil => intro x a sel; rfl
  | cons p rest ih =>
    intro x a sel
    match p with
    | (j, v) =>
      rw [scanApp, scanFull]
      split_ifs <;> apply ih

theorem scanFull_append (pred : Nat → Bool) :
    ∀ (ps qs : List (Nat × Nat)) (x a : Nat) (sel : List Nat),
    scanFull pred (ps ++ qs) x a sel =
      scanFull pred qs (scanFull pred ps x a sel).1 (scanFull pred ps x a sel).2.1
        (scanFull pred ps x a sel).2.2 := by
  intro ps
  induction ps with
  | nil => intro qs x a sel; rfl
  | cons p rest ih =>
    intro qs x a sel
    match p with
    | (j, v) =>
      rw [List.cons_append, scanFull, scanFull]
      split_ifs <;> apply ih

theorem scanFull_acc (pred : Nat → Bool) :
    ∀ (ps : List (Nat × Nat)) (x a : Nat) (sel : List Nat),
    scanFull pred ps x a sel =
      ((scanFull pred ps x a []).1, (scanFull pred ps x a []).2.1,
        sel ++ (scanFull pred ps x a []).2.2) := by
  intro ps
  induction ps with
  | nil => intro x a sel; simp [scanFull]
  | cons p rest ih =>
    intro x a sel
    match p with
    | (j, v) =>
      rw [scanFull, scanFull]
      split_ifs with h
      · rw [ih (x + 1) (a + Cnk j (x + 1)) (sel ++ [v]),
          ih (x + 1) (a + Cnk j (x + 1)) ([] ++ [v])]
        simp
      · exact ih x a sel

theorem scanPre_eq_scanFull (pred : Nat → Bool) :
    ∀ (ps : List (Nat × Nat)) (x a : Nat) (sel : List Nat),
    scanPre pred ps x a sel =
      ((scanFull pred ps x a []).2.1, ((scanFull pred ps x a []).2.2).reverse ++ sel) := by
  intro ps
  induction ps with
  | nil => intro x a sel; rfl
  | cons p rest ih =>
    intro x a sel
    match p with
    | (j, v) =>
      rw [scanPre, scanFull]
      split_ifs with h
      · rw [ih (x + 1) (a + Cnk j (x + 1)) (v :: sel),
          scanFull_acc pred rest (x + 1) (a + Cnk j (x + 1)) ([] ++ [v])]
        simp
      · exact ih x a sel

/-- Abstract form of the array produced by the greedy combination placement:
positions `n-1` down to `0`; a chosen position receives `sel[selIdx (x-1)]`,
an unchosen position receives `fil n x`. -/
def buildG (sel : List Nat) (selIdx : Nat → Nat) (fil : Nat → Nat → Nat) :
    Nat → Nat → Nat → List Nat
  | 0, _, _ => []
  | n + 1, a, x =>
    if Cnk n x ≤ a then
      buildG sel selIdx fil n (a - Cnk n x) (x - 1) ++ [sel.getD (selIdx (x - 1)) 0]
    else buildG sel selIdx fil n a x ++ [fil n x]

theorem buildG_length (sel : List Nat) (selIdx : Nat → Nat) (fil : Nat → Nat → Nat) :
    ∀ n a x, (buildG sel selIdx fil n a x).length = n := by
  intro n
  induction n with
  | zero => intro a x; rfl
  | succ n ih =>
    intro a x
    rw [buildG]
    split_ifs <;> simp [ih]

/-- Descending position list `[n-1, ..., 0]`. -/
def descList : Nat → List Nat
  | 0 => []
  | n + 1 => n :: descList n

/-- Ascending position list `[12-k, ..., 11]`. -/
def ascTo12 : Nat → List Nat
  | 0 => []
  | k + 1 => (11 - k) :: ascTo12 k

theorem set_append_cons (l1 : List Nat) (k : Nat) (hk : k = l1.length) :
    ∀ (w : Nat) (l2 : List Nat) (v : Nat), (l1 ++ w :: l2).set k v = l1 ++ v :: l2 := by
  subst hk
  induction l1 with
  | nil => intro w l2 v; rfl
  | cons h t ih => intro w l2 v; simp [List.set, ih]

theorem placeLoop_eq_buildG_A (selIdx : Nat → Nat) (sel : List Nat) (s : Nat) :
    ∀ (n a x : Nat) (tail : List Nat),
    placeLoop id selIdx sel (descList n) (List.replicate n s ++ tail) a x
      = buildG sel selIdx (fun _ _ => s) n a x ++ tail := by
  intro n
  induction n with
  | zero => intro a x tail; rfl
  | succ n ih =>
    intro a x tail
    rw [descList, placeLoop, buildG]
    simp only [id_eq]
    have harr : List.replicate (n + 1) s ++ tail = List.replicate n s ++ (s :: tail) := by
      rw [List.replicate_succ']; simp
    split_ifs with h
    · rw [harr, set_append_cons (List.replicate n s) n (by simp), ih]
      simp
    · rw [harr, ih]
      simp

theorem placeLoop_eq_buildG_B (selIdx : Nat → Nat) (sel : List Nat) (s : Nat) :
    ∀ (k : Nat), k ≤ 12 → ∀ (a x : Nat) (pre : List Nat), pre.length = 12 - k →
    placeLoop (fun j => 11 - j) selIdx sel (ascTo12 k) (pre ++ List.replicate k s) a x
      = pre ++ (buildG sel selIdx (fun _ _ => s) k a x).reverse := by
  intro k
  induction k with
  | zero => intro _ a x pre _; simp [ascTo12, placeLoop, buildG]
  | succ k ih =>
    intro hk a x pre hpre
    rw [ascTo12, placeLoop, buildG]
    have hk11 : 11 - (11 - k) = k := by omega
    rw [hk11]
    have harr : pre ++ List.replicate (k + 1) s = pre ++ (s :: List.replicate k s) := by
      rw [List.replicate_succ]
    split_ifs with h
    · rw [harr, set_append_cons pre (11 - k) (by omega),
        show pre ++ sel.getD (selIdx (x - 1)) 0 :: List.replicate k s
          = (pre ++ [sel.getD (selIdx (x - 1)) 0]) ++ List.replicate k s by simp,
        ih (by omega) _ _ _ (by simp; omega)]
      simp
    · rw [harr,
        show pre ++ s :: List.replicate k s = (pre ++ [s]) ++ List.replicate k s by simp,
        ih (by omega) _ _ _ (by simp; omega)]
      simp

theorem headD_drop (l : List Nat) : ∀ (i d : Nat), (l.drop i).headD d = l.getD i d := by
  induction l with
  | nil => intro i d; cases i <;> rfl
  | cons h t ih =>
    intro i d
    cases i with
    | zero => rfl
    | succ i => rw [List.drop_succ_cons, ih, List.getD_cons_succ]

theorem drop_tail_eq (l : List Nat) (c : Nat) : List.drop c l.tail = List.drop (c + 1) l := by
  rw [← List.drop_one, List.drop_drop, Nat.add_comm]

theorem fillOther_append (s : Nat) :
    ∀ (l1 l2 others : List Nat),
    fillOther s (l1 ++ l2) others
      = fillOther s l1 others ++ fillOther s l2 (others.drop (l1.count s)) := by
  intro l1
  induction l1 with
  | nil => intro l2 others; simp [fillOther]
  | cons v t ih =>
    intro l2 others
    rw [List.cons_append, fillOther, fillOther]
    split_ifs with h
    · subst h
      rw [ih, List.count_cons_self, drop_tail_eq]
      simp
    · rw [ih, List.count_cons_of_ne (Ne.symm h)]
      simp

theorem buildGpre_count (sel : List Nat) (selIdx : Nat → Nat) (s : Nat)
    (hne : ∀ y, sel.getD (selIdx y) 0 ≠ s) :
    ∀ (n a x : Nat), a < Cnk n x → x ≤ n →
    (buildG sel selIdx (fun _ _ => s) n a x).count s = n - x := by
  intro n
  induction n with
  | zero => intro a x _ hx; interval_cases x; rfl
  | succ n ih =>
    intro a x ha hx
    rw [buildG]
    rw [cnk_eq_choose] at ha
    split_ifs with h
    · rw [cnk_eq_choose] at h
      match x, hx with
      | 0, _ =>
        exfalso
        rw [Nat.choose_zero_right] at h ha
        omega
      | x + 1, hx =>
        simp only [Nat.add_sub_cancel]
        rw [List.count_append,
          ih (a - Cnk n (x + 1)) x (by
            rw [Nat.choose_succ_succ'] at ha
            rw [cnk_eq_choose, cnk_eq_choose]
            omega) (by omega),
          List.count_singleton', if_neg (hne x)]
        omega
    · rw [cnk_eq_choose] at h
      have hxn : x ≤ n := by
        by_contra hcon
        rw [Nat.choose_eq_zero_of_lt (by omega)] at h
        omega
      rw [List.count_append, ih a x (by rw [cnk_eq_choose]; omega) hxn,
        List.count_singleton', if_pos rfl]
      omega

theorem fillOther_buildG_A (sel : List Nat) (selIdx : Nat → Nat) (s : Nat) (others : List Nat)
    (hne : ∀ y, sel.getD (selIdx y) 0 ≠ s) :
    ∀ (n a x : Nat), a < Cnk n x → x ≤ n →
    fillOther s (buildG sel selIdx (fun _ _ => s) n a x) others
      = buildG sel selIdx (fun m y => others.getD (m - y) 0) n a x := by
  intro n
  induction n with
  | zero => intro a x _ _; rfl
  | succ n ih =>
    intro a x ha hx
    rw [buildG, buildG]
    rw [cnk_eq_choose] at ha
    split_ifs with h
    · rw [cnk_eq_choose] at h
      match x, hx with
      | 0, _ =>
        exfalso
        rw [Nat.choose_zero_right] at h ha
        omega
      | x + 1, hx =>
        simp only [Nat.add_sub_cancel]
        rw [fillOther_append,
          ih (a - Cnk n (x + 1)) x (by
            rw [Nat.choose_succ_succ'] at ha
            rw [cnk_eq_choose, cnk_eq_choose]
            omega) (by omega)]
        rw [fillOther, if_neg (hne x)]
        rfl
    · rw [cnk_eq_choose] at h
      have hxn : x ≤ n := by
        by_contra hcon
        rw [Nat.choose_eq_zero_of_lt (by omega)] at h
        omega
      rw [fillOther_append,
        ih a x (by rw [cnk_eq_choose]; omega) hxn,
        buildGpre_count sel selIdx s hne n a x (by rw [cnk_eq_choose]; omega) hxn]
      rw [fillOther, if_pos rfl]
      rw [show fillOther s [] (others.drop (n - x)).tail = [] from rfl]
      rw [headD_drop]

theorem fillOther_buildG_B (sel : List Nat) (selIdx : Nat → Nat) (s : Nat) (others : List Nat)
    (hne : ∀ y, sel.getD (selIdx y) 0 ≠ s) :
    ∀ (n a x : Nat), a < Cnk n x → x ≤ n → x ≤ 4 → n ≤ 8 + x →
    fillOther s ((buildG sel selIdx (fun _ _ => s) n a x).reverse)
        (others.drop (12 - n - (4 - x)))
      = (buildG sel selIdx (fun m y => others.getD (7 + y - m) 0) n a x).reverse := by
  intro n
  induction n with
  | zero => intro a x _ _ _ _; rfl
  | succ n ih =>
    intro a x ha hx hx4 hn8
    rw [buildG, buildG]
    rw [cnk_eq_choose] at ha
    split_ifs with h
    · rw [cnk_eq_choose] at h
      match x, hx, hx4, hn8 with
      | 0, _, _, _ =>
        exfalso
        rw [Nat.choose_zero_right] at h ha
        omega
      | x + 1, hx, hx4, hn8 =>
        simp only [Nat.add_sub_cancel, List.reverse_append, List.reverse_singleton,
          List.singleton_append]
        rw [fillOther, if_neg (hne x)]
        rw [show 12 - (n + 1) - (4 - (x + 1)) = 12 - n - (4 - x) by omega]
        rw [ih (a - Cnk n (x + 1)) x (by
            rw [Nat.choose_succ_succ'] at ha
            rw [cnk_eq_choose, cnk_eq_choose]
            omega) (by omega) (by omega) (by omega)]
    · rw [cnk_eq_choose] at h
      have hxn : x ≤ n := by
        by_contra hcon
        rw [Nat.choose_eq_zero_of_lt (by omega)] at h
        omega
      simp only [List.reverse_append, List.reverse_singleton, List.singleton_append]
      rw [fillOther, if_pos rfl, headD_drop, List.tail_drop]
      rw [show 12 - (n + 1) - (4 - x) = 7 + x - n by omega]
      rw [show 7 + x - n + 1 = 12 - n - (4 - x) by omega]
      rw [ih a x (by rw [cnk_eq_choose]; omega) hxn hx4 (by omega)]

theorem enumFrom_append_aux : ∀ (l1 l2 : List Nat) (i : Nat),
    (l1 ++ l2).enumFrom i = l1.enumFrom i ++ l2.enumFrom (i + l1.length) := by
  intro l1
  induction l1 with
  | nil => intro l2 i; simp
  | cons v t ih =>
    intro l2 i
    simp only [List.cons_append, List.enumFrom_cons, ih, List.length_cons]
    rw [show i + (t.length + 1) = i + 1 + t.length by omega]

theorem enum_append_singleton (l : List Nat) (e : Nat) :
    (l ++ [e]).enum = l.enum ++ [(l.length, e)] := by
  rw [List.enum, enumFrom_append_aux, Nat.zero_add]
  rfl

/-- The ascending combination scan inverts the greedy combination placement:
scanning the assembled array recovers the count, the accumulated index and
the placed window values in order. -/
theorem scanFull_buildG (pred : Nat → Bool) (sel : List Nat) (selIdx : Nat → Nat)
    (fil : Nat → Nat → Nat) (L X0 : Nat)
    (hselp : ∀ y, y < X0 → pred (sel.getD (selIdx y) 0) = true)
    (hfil : ∀ m y, y ≤ m → m + 1 ≤ y + L → pred (fil m y) = false) :
    ∀ (n a x : Nat), a < Cnk n x → x ≤ n → x ≤ X0 → n ≤ x + L →
    scanFull pred (buildG sel selIdx fil n a x).enum 0 0 []
      = (x, a, (List.range x).map fun y => sel.getD (selIdx y) 0) := by
  intro n
  induction n with
  | zero =>
    intro a x ha hx _ _
    interval_cases x
    rw [cnk_eq_choose, Nat.choose_self] at ha
    interval_cases a
    rfl
  | succ n ih =>
    intro a x ha hx hX0 hL
    rw [buildG]
    rw [cnk_eq_choose] at ha
    split_ifs with h
    · rw [cnk_eq_choose] at h
      match x, hx, hX0, hL with
      | 0, _, _, _ =>
        exfalso
        rw [Nat.choose_zero_right] at h ha
        omega
      | x + 1, hx, hX0, hL =>
        simp only [Nat.add_sub_cancel]
        rw [enum_append_singleton, buildG_length, scanFull_append,
          ih (a - Cnk n (x + 1)) x (by
            rw [Nat.choose_succ_succ'] at ha
            rw [cnk_eq_choose, cnk_eq_choose]
            omega) (by omega) (by omega) (by omega)]
        rw [scanFull, if_pos (hselp x (by omega)), scanFull]
        rw [show a - Cnk n (x + 1) + Cnk n (x + 1) = a by
          rw [cnk_eq_choose]; omega]
        rw [List.range_succ, List.map_append]
        rfl
    · rw [cnk_eq_choose] at h
      have hxn : x ≤ n := by
        by_contra hcon
        rw [Nat.choose_eq_zero_of_lt (by omega)] at h
        omega
      rw [enum_append_singleton, buildG_length, scanFull_append,
        ih a x (by rw [cnk_eq_choose]; omega) hxn hX0 (by omega)]
      rw [scanFull, if_neg (by rw [hfil n x hxn (by omega)]; exact Bool.false_ne_true), scanFull]

/-- On an arbitrary array the scan yields the predicate count, an index below
the binomial bound (hockey-stick), and the filtered sublist as window. -/
theorem scanFull_enum_spec (pred : Nat → Bool) (l : List Nat) :
    ∃ A, scanFull pred l.enum 0 0 [] = (l.countP pred, A, l.filter pred)
      ∧ A < Nat.choose l.length (l.countP pred) := by
  induction l using List.reverseRecOn with
  | nil => exact ⟨0, rfl, by simp⟩
  | append_singleton l e ih =>
    obtain ⟨A, hs, hb⟩ := ih
    rw [enum_append_singleton]
    by_cases hp : pred e
    · refine ⟨A + Cnk l.length (l.countP pred + 1), ?_, ?_⟩
      · rw [scanFull_append, hs, scanFull, if_pos hp, scanFull]
        simp [List.countP_append, List.filter_append, hp, List.countP_cons]
      · rw [List.length_append, List.countP_append,
          show List.countP pred [e] = 1 by simp [List.countP_cons, hp]]
        rw [cnk_eq_choose, List.length_singleton,
          show l.length + 1 = l.length + 1 by rfl]
        calc A + l.length.choose (l.countP pred + 1)
            < l.length.choose (l.countP pred) + l.length.choose (l.countP pred + 1) := by omega
          _ = (l.length + 1).choose (l.countP pred + 1) := (Nat.choose_succ_succ' _ _).symm
    · refine ⟨A, ?_, ?_⟩
      · rw [scanFull_append, hs, scanFull, if_neg hp, scanFull]
        simp [List.countP_append, List.filter_append, hp, List.countP_cons]
      · rw [List.length_append, List.countP_append,
          show List.countP pred [e] = 0 by simp [List.countP_cons, hp]]
        simp only [List.length_singleton, Nat.add_zero]
        exact Nat.lt_of_lt_of_le hb (Nat.choose_le_choose _ (Nat.le_succ _))

theorem rotate_right_perm (arr : List Nat) (r : Nat) (h : r < arr.length) :
    List.Perm (rotate_right arr 0 r) arr := by
  unfold rotate_right
  simp only [List.take_zero, List.drop_zero, Nat.sub_zero, List.nil_append]
  rw [List.getD_eq_getElem arr 0 h]
  have h2 : arr.take r ++ arr[r] :: arr.drop (r + 1) = arr := by
    rw [← List.drop_eq_getElem_cons h, List.take_append_drop]
  have h1 : (arr.take r ++ arr[r] :: arr.drop (r + 1)).Perm
      (arr[r] :: (arr.take r ++ arr.drop (r + 1))) := List.perm_middle
  rw [h2] at h1
  simp only [List.append_assoc, List.singleton_append]
  exact h1.symm

theorem rotate_right_length (arr : List Nat) (r : Nat) (h : r < arr.length) :
    (rotate_right arr 0 r).length = arr.length := by
  exact (rotate_right_perm arr r h).length_eq

theorem rotNTimes_perm (r : Nat) : ∀ (cnt : Nat) (arr : List Nat), r < arr.length →
    List.Perm (rotNTimes r cnt arr) arr := by
  intro cnt
  induction cnt with
  | zero => intro arr _; rfl
  | succ cnt ih =>
    intro arr h
    rw [rotNTimes]
    exact ((ih _ (by rw [rotate_right_length arr r h]; exact h)).trans
      (rotate_right_perm arr r h))

theorem genPerm_perm : ∀ (js : List Nat) (sel : List Nat) (b : Nat),
    (∀ j ∈ js, j < sel.length) → List.Perm (genPerm js sel b) sel := by
  intro js
  induction js with
  | nil => intro sel b _; rfl
  | cons j t ih =>
    intro sel b hj
    rw [genPerm]
    have hjl : j < sel.length := hj j (List.mem_cons_self j t)
    have hperm := rotNTimes_perm j (b % (j + 1)) sel hjl
    exact (ih _ _ (fun q hq => hperm.length_eq ▸ hj q (List.mem_cons_of_mem j hq))).trans hperm

theorem getD_mem_of_lt (l : List Nat) (i d : Nat) (h : i < l.length) : l.getD i d ∈ l := by
  rw [List.getD_eq_getElem l d h]
  exact List.getElem_mem h

theorem map_range_getD (l : List Nat) (n : Nat) (h : l.length = n) :
    (List.range n).map (fun i => l.getD i 0) = l := by
  subst h
  exact map_getD_range l

theorem choose_8_6 : Nat.choose 8 6 = 28 := by decide

theorem get_set_URFtoDLF_aux (c : CubieCube) (idx : Nat) (h : idx < 20160)
    (hp : encPerm id [5, 4, 3, 2, 1]
      (genPerm [1, 2, 3, 4, 5] [0, 1, 2, 3, 4, 5] (idx % 720)) 0 = idx % 720) :
    get_URFtoDLF (set_URFtoDLF c idx) = idx := by
  have hsp : List.Perm (genPerm [1, 2, 3, 4, 5] [0, 1, 2, 3, 4, 5] (idx % 720))
      [0, 1, 2, 3, 4, 5] := by
    apply genPerm_perm
    intro j hj
    fin_cases hj <;> decide
  have hlen : (genPerm [1, 2, 3, 4, 5] [0, 1, 2, 3, 4, 5] (idx % 720)).length = 6 :=
    hsp.length_eq
  have hval : ∀ v ∈ genPerm [1, 2, 3, 4, 5] [0, 1, 2, 3, 4, 5] (idx % 720), v ≤ 5 := by
    intro v hv
    have hm := hsp.mem_iff.mp hv
    simp at hm
    omega
  have hne : ∀ y, (genPerm [1, 2, 3, 4, 5] [0, 1, 2, 3, 4, 5] (idx % 720)).getD (id y) 0 ≠ 7 := by
    intro y
    simp only [id_eq]
    by_cases hy : y < 6
    · have := hval _ (getD_mem_of_lt _ y 0 (by rw [hlen]; omega))
      omega
    · rw [List.getD_eq_default _ 0 (by rw [hlen]; omega)]
      omega
  have hcp : (set_URFtoDLF c idx).cp
      = buildG (genPerm [1, 2, 3, 4, 5] [0, 1, 2, 3, 4, 5] (idx % 720)) id
          (fun m y => ([6, 7] : List Nat).getD (m - y) 0) 8 (idx / 720) 6 := by
    show fillOther 7 (placeLoop id id (genPerm [1, 2, 3, 4, 5] [0, 1, 2, 3, 4, 5] (idx % 720))
        [7, 6, 5, 4, 3, 2, 1, 0] (List.replicate 8 7) (idx / 720) 6) [6, 7] = _
    rw [show ([7, 6, 5, 4, 3, 2, 1, 0] : List Nat) = descList 8 from rfl,
      show (List.replicate 8 7 : List Nat) = List.replicate 8 7 ++ [] from (List.append_nil _).symm,
      placeLoop_eq_buildG_A, List.append_nil,
      fillOther_buildG_A _ _ _ _ hne 8 (idx / 720) 6
        (by rw [cnk_eq_choose, choose_8_6]; omega) (by omega)]
  rw [get_URFtoDLF, hcp, scanApp_eq_scanFull,
    scanFull_buildG _ _ _ _ 2 6
      (by
        intro y hy
        simp only [id_eq, decide_eq_true_eq]
        exact hval _ (getD_mem_of_lt _ y 0 (by rw [hlen]; omega)))
      (by
        intro m y h1 h2
        have : m - y = 0 ∨ m - y = 1 := by omega
        rcases this with h3 | h3 <;> rw [h3] <;> decide)
      8 (idx / 720) 6
      (by rw [cnk_eq_choose, choose_8_6]; omega) (by omega) (by omega) (by omega)]
  simp only [id_eq]
  rw [map_range_getD _ 6 hlen, hp]
  omega

theorem choose_12_6 : Nat.choose 12 6 = 924 := by decide

theorem choose_12_3 : Nat.choose 12 3 = 220 := by decide

theorem choose_12_4 : Nat.choose 12 4 = 495 := by decide

theorem get_set_URtoDF_aux (c : CubieCube) (idx : Nat) (h : idx < 665280)
    (hp : encPerm id [5, 4, 3, 2, 1]
      (genPerm [1, 2, 3, 4, 5] [0, 1, 2, 3, 4, 5] (idx % 720)) 0 = idx % 720) :
    get_URtoDF (set_URtoDF c idx) = idx := by
  have hsp : List.Perm (genPerm [1, 2, 3, 4, 5] [0, 1, 2, 3, 4, 5] (idx % 720))
      [0, 1, 2, 3, 4, 5] := by
    apply genPerm_perm
    intro j hj
    fin_cases hj <;> decide
  have hlen : (genPerm [1, 2, 3, 4, 5] [0, 1, 2, 3, 4, 5] (idx % 720)).length = 6 :=
    hsp.length_eq
  have hval : ∀ v ∈ genPerm [1, 2, 3, 4, 5] [0, 1, 2, 3, 4, 5] (idx % 720), v ≤ 5 := by
    intro v hv
    have hm := hsp.mem_iff.mp hv
    simp at hm
    omega
  have hne : ∀ y, (genPerm [1, 2, 3, 4, 5] [0, 1, 2, 3, 4, 5] (idx % 720)).getD (id y) 0 ≠ 11 := by
    intro y
    simp only [id_eq]
    by_cases hy : y < 6
    · have := hval _ (getD_mem_of_lt _ y 0 (by rw [hlen]; omega))
      omega
    · rw [List.getD_eq_default _ 0 (by rw [hlen]; omega)]
      omega
  have hep : (set_URtoDF c idx).ep
      = buildG (genPerm [1, 2, 3, 4, 5] [0, 1, 2, 3, 4, 5] (idx % 720)) id
          (fun m y => ([6, 7, 8, 9, 10, 11] : List Nat).getD (m - y) 0) 12 (idx / 720) 6 := by
    show fillOther 11 (placeLoop id id (genPerm [1, 2, 3, 4, 5] [0, 1, 2, 3, 4, 5] (idx % 720))
        [11, 10, 9, 8, 7, 6, 5, 4, 3, 2, 1, 0] (List.replicate 12 11) (idx / 720) 6)
        [6, 7, 8, 9, 10, 11] = _
    rw [show ([11, 10, 9, 8, 7, 6, 5, 4, 3, 2, 1, 0] : List Nat) = descList 12 from rfl,
      show (List.replicate 12 11 : List Nat) = List.replicate 12 11 ++ [] from
        (List.append_nil _).symm,
      placeLoop_eq_buildG_A, List.append_nil,
      fillOther_buildG_A _ _ _ _ hne 12 (idx / 720) 6
        (by rw [cnk_eq_choose, choose_12_6]; omega) (by omega)]
  rw [get_URtoDF, hep, scanApp_eq_scanFull,
    scanFull_buildG _ _ _ _ 6 6
      (by
        intro y hy
        simp only [id_eq, decide_eq_true_eq]
        exact hval _ (getD_mem_of_lt _ y 0 (by rw [hlen]; omega)))
      (by
        intro m y h1 h2
        have h3 : m - y = 0 ∨ m - y = 1 ∨ m - y = 2 ∨ m - y = 3 ∨ m - y = 4 ∨ m - y = 5 := by
          omega
        rcases h3 with h3 | h3 | h3 | h3 | h3 | h3 <;> rw [h3] <;> decide)
      12 (idx / 720) 6
      (by rw [cnk_eq_choose, choose_12_6]; omega) (by omega) (by omega) (by omega)]
  simp only [id_eq]
  rw [map_range_getD _ 6 hlen, hp]
  omega

theorem get_set_URtoUL_aux (c : CubieCube) (idx : Nat) (h : idx < 1320)
    (hp : encPerm id [2, 1] (genPerm [1, 2] [0, 1, 2] (idx % 6)) 0 = idx % 6) :
    get_URtoUL (set_URtoUL c idx) = idx := by
  have hsp : List.Perm (genPerm [1, 2] [0, 1, 2] (idx % 6)) [0, 1, 2] := by
    apply genPerm_perm
    intro j hj
    fin_cases hj <;> decide
  have hlen : (genPerm [1, 2] [0, 1, 2] (idx % 6)).length = 3 := hsp.length_eq
  have hval : ∀ v ∈ genPerm [1, 2] [0, 1, 2] (idx % 6), v ≤ 2 := by
    intro v hv
    have hm := hsp.mem_iff.mp hv
    simp at hm
    omega
  have hep : (set_URtoUL c idx).ep
      = buildG (genPerm [1, 2] [0, 1, 2] (idx % 6)) id (fun _ _ => 11) 12 (idx / 6) 3 := by
    show placeLoop id id (genPerm [1, 2] [0, 1, 2] (idx % 6))
        [11, 10, 9, 8, 7, 6, 5, 4, 3, 2, 1, 0] (List.replicate 12 11) (idx / 6) 3 = _
    rw [show ([11, 10, 9, 8, 7, 6, 5, 4, 3, 2, 1, 0] : List Nat) = descList 12 from rfl,
      show (List.replicate 12 11 : List Nat) = List.replicate 12 11 ++ [] from
        (List.append_nil _).symm,
      placeLoop_eq_buildG_A, List.append_nil]
  rw [get_URtoUL, hep, scanApp_eq_scanFull,
    scanFull_buildG _ _ _ _ 9 3
      (by
        intro y hy
        simp only [id_eq, decide_eq_true_eq]
        exact hval _ (getD_mem_of_lt _ y 0 (by rw [hlen]; omega)))
      (by intro m y _ _; rfl)
      12 (idx / 6) 3
      (by rw [cnk_eq_choose, choose_12_3]; omega) (by omega) (by omega) (by omega)]
  simp only [id_eq]
  rw [map_range_getD _ 3 hlen, hp]
  omega

theorem get_set_UBtoDF_aux (c : CubieCube) (idx : Nat) (h : idx < 1320)
    (hp : encPerm (fun j => j + 3) [2, 1] (genPerm [1, 2] [3, 4, 5] (idx % 6)) 0 = idx % 6) :
    get_UBtoDF (set_UBtoDF c idx) = idx := by
  have hsp : List.Perm (genPerm [1, 2] [3, 4, 5] (idx % 6)) [3, 4, 5] := by
    apply genPerm_perm
    intro j hj
    fin_cases hj <;> decide
  have hlen : (genPerm [1, 2] [3, 4, 5] (idx % 6)).length = 3 := hsp.length_eq
  have hval : ∀ v ∈ genPerm [1, 2] [3, 4, 5] (idx % 6), 3 ≤ v ∧ v ≤ 5 := by
    intro v hv
    have hm := hsp.mem_iff.mp hv
    simp at hm
    omega
  have hep : (set_UBtoDF c idx).ep
      = buildG (genPerm [1, 2] [3, 4, 5] (idx % 6)) id (fun _ _ => 11) 12 (idx / 6) 3 := by
    show placeLoop id id (genPerm [1, 2] [3, 4, 5] (idx % 6))
        [11, 10, 9, 8, 7, 6, 5, 4, 3, 2, 1, 0] (List.replicate 12 11) (idx / 6) 3 = _
    rw [show ([11, 10, 9, 8, 7, 6, 5, 4, 3, 2, 1, 0] : List Nat) = descList 12 from rfl,
      show (List.replicate 12 11 : List Nat) = List.replicate 12 11 ++ [] from
        (List.append_nil _).symm,
      placeLoop_eq_buildG_A, List.append_nil]
  rw [get_UBtoDF, hep, scanApp_eq_scanFull,
    scanFull_buildG _ _ _ _ 9 3
      (by
        intro y hy
        simp only [id_eq, Bool.and_eq_true, decide_eq_true_eq]
        have := hval _ (getD_mem_of_lt _ y 0 (by rw [hlen]; omega))
        exact ⟨this.1, this.2⟩)
      (by intro m y _ _; rfl)
      12 (idx / 6) 3
      (by rw [cnk_eq_choose, choose_12_3]; omega) (by omega) (by omega) (by omega)]
  simp only [id_eq]
  rw [map_range_getD _ 3 hlen, hp]
  omega

theorem exists_four (l : List Nat) (h : l.length = 4) :
    ∃ a0 a1 a2 a3, l = [a0, a1, a2, a3] := by
  obtain ⟨a0, l, rfl⟩ := List.exists_of_length_succ l h
  simp only [List.length_cons] at h
  obtain ⟨a1, l, rfl⟩ := List.exists_of_length_succ l (show l.length = 2 + 1 by omega)
  simp only [List.length_cons] at h
  obtain ⟨a2, l, rfl⟩ := List.exists_of_length_succ l (show l.length = 1 + 1 by omega)
  simp only [List.length_cons] at h
  obtain ⟨a3, l, rfl⟩ := List.exists_of_length_succ l (show l.length = 0 + 1 by omega)
  simp only [List.length_cons] at h
  have : l = [] := List.length_eq_zero.mp (by omega)
  subst this
  exact ⟨a0, a1, a2, a3, rfl⟩

/-- For a 12-entry list, the reversed-and-rebased enumeration used by
`get_FRtoBR` is the enumeration of the reversed list. -/
theorem enumRev12 (l : List Nat) (h : l.length = 12) :
    l.enum.reverse.map (fun p => (11 - p.1, p.2)) = l.reverse.enum := by
  obtain ⟨a0, a1, a2, a3, a4, a5, a6, a7, a8, a9, a10, a11, rfl⟩ := exists_twelve l h
  rfl

theorem get_set_FRtoBR_aux (c : CubieCube) (idx : Nat) (h : idx < 11880)
    (hp : encPerm (fun j => j + 8) [3, 2, 1]
      (genPerm [1, 2, 3] [8, 9, 10, 11] (idx % 24)) 0 = idx % 24) :
    get_FRtoBR (set_FRtoBR c idx) = idx := by
  have hsp : List.Perm (genPerm [1, 2, 3] [8, 9, 10, 11] (idx % 24)) [8, 9, 10, 11] := by
    apply genPerm_perm
    intro j hj
    fin_cases hj <;> decide
  have hlen : (genPerm [1, 2, 3] [8, 9, 10, 11] (idx % 24)).length = 4 := hsp.length_eq
  have hval : ∀ v ∈ genPerm [1, 2, 3] [8, 9, 10, 11] (idx % 24), 8 ≤ v ∧ v ≤ 11 := by
    intro v hv
    have hm := hsp.mem_iff.mp hv
    simp at hm
    omega
  have hne : ∀ y, (genPerm [1, 2, 3] [8, 9, 10, 11] (idx % 24)).getD (3 - y) 0 ≠ 7 := by
    intro y
    have h34 : 3 - y < 4 := by omega
    have := hval _ (getD_mem_of_lt _ (3 - y) 0 (by rw [hlen]; omega))
    omega
  have hep : (set_FRtoBR c idx).ep
      = (buildG (genPerm [1, 2, 3] [8, 9, 10, 11] (idx % 24)) (fun x => 3 - x)
          (fun m y => ([0, 1, 2, 3, 4, 5, 6, 7] : List Nat).getD (7 + y - m) 0)
          12 (idx / 24) 4).reverse := by
    show fillOther 7 (placeLoop (fun j => 11 - j) (fun x => 3 - x)
        (genPerm [1, 2, 3] [8, 9, 10, 11] (idx % 24))
        [0, 1, 2, 3, 4, 5, 6, 7, 8, 9, 10, 11] (List.replicate 12 7) (idx / 24) 4)
        [0, 1, 2, 3, 4, 5, 6, 7] = _
    rw [show ([0, 1, 2, 3, 4, 5, 6, 7, 8, 9, 10, 11] : List Nat) = ascTo12 12 from rfl,
      show (List.replicate 12 7 : List Nat) = [] ++ List.replicate 12 7 from rfl,
      placeLoop_eq_buildG_B _ _ _ 12 (by omega) (idx / 24) 4 [] rfl,
      List.nil_append]
    nth_rewrite 1 [show ([0, 1, 2, 3, 4, 5, 6, 7] : List Nat)
      = List.drop (12 - 12 - (4 - 4)) [0, 1, 2, 3, 4, 5, 6, 7] from rfl]
    rw [fillOther_buildG_B _ _ _ _ hne 12 (idx / 24) 4
      (by rw [cnk_eq_choose, choose_12_4]; omega) (by omega) (by omega) (by omega)]
  have heplen : (set_FRtoBR c idx).ep.length = 12 := by
    rw [hep, List.length_reverse, buildG_length]
  rw [get_FRtoBR, enumRev12 _ heplen, hep, List.reverse_reverse, scanPre_eq_scanFull,
    scanFull_buildG _ _ _ _ 8 4
      (by
        intro y hy
        simp only [Bool.and_eq_true, decide_eq_true_eq]
        have := hval _ (getD_mem_of_lt _ (3 - y) 0 (by rw [hlen]; omega))
        exact ⟨this.1, this.2⟩)
      (by
        intro m y h1 h2
        have h7 : ([0, 1, 2, 3, 4, 5, 6, 7] : List Nat).getD (7 + y - m) 0 ≤ 7 := by
          by_cases hb : 7 + y - m < 8
          · have h8 : (7 + y - m) = 0 ∨ (7 + y - m) = 1 ∨ (7 + y - m) = 2 ∨ (7 + y - m) = 3
                ∨ (7 + y - m) = 4 ∨ (7 + y - m) = 5 ∨ (7 + y - m) = 6 ∨ (7 + y - m) = 7 := by
              omega
            rcases h8 with h8 | h8 | h8 | h8 | h8 | h8 | h8 | h8 <;> rw [h8] <;> decide
          · rw [List.getD_eq_default _ 0 (by simp; omega)]
            omega
        have h8 : ¬ (8 ≤ ([0, 1, 2, 3, 4, 5, 6, 7] : List Nat).getD (7 + y - m) 0) := by omega
        rw [decide_eq_false h8, Bool.false_and])
      12 (idx / 24) 4
      (by rw [cnk_eq_choose, choose_12_4]; omega) (by omega) (by omega) (by omega)]
  dsimp only
  obtain ⟨s0, s1, s2, s3, hs4⟩ := exists_four _ hlen
  rw [hs4,
    show (((List.range 4).map fun y => ([s0, s1, s2, s3] : List Nat).getD (3 - y) 0).reverse
      ++ ([] : List Nat)) = [s0, s1, s2, s3] from rfl,
    ← hs4, hp]
  omega

theorem get_set_twist (c : CubieCube) (h8 : c.co.length = 8) (t : Nat) (ht : t < 2187) :
    get_twist (set_twist c t) = t := by
  obtain ⟨b0, b1, b2, b3, b4, b5, b6, b7, hco⟩ := exists_eight c.co h8
  have hr7 : List.range 7 = [0, 1, 2, 3, 4, 5, 6] := rfl
  simp only [get_twist, set_twist, hco, setOriAux, List.set, hr7, List.foldl_cons,
    List.foldl_nil, List.getD_cons_zero, List.getD_cons_succ]
  omega

theorem get_set_flip (c : CubieCube) (h12 : c.eo.length = 12) (t : Nat) (ht : t < 2048) :
    get_flip (set_flip c t) = t := by
  obtain ⟨b0, b1, b2, b3, b4, b5, b6, b7, b8, b9, b10, b11, heo⟩ := exists_twelve c.eo h12
  have hr11 : List.range 11 = [0, 1, 2, 3, 4, 5, 6, 7, 8, 9, 10] := rfl
  simp only [get_flip, set_flip, heo, setOriAux, List.set, hr11, List.foldl_cons,
    List.foldl_nil, List.getD_cons_zero, List.getD_cons_succ]
  omega

theorem get_twist_lt (s : CubieCube) (h8 : s.co.length = 8) (hv : ∀ v ∈ s.co, v < 3) :
    get_twist s < 2187 := by
  obtain ⟨b0, b1, b2, b3, b4, b5, b6, b7, hco⟩ := exists_eight s.co h8
  rw [hco] at hv
  simp only [List.mem_cons, forall_eq_or_imp, List.not_mem_nil] at hv
  have hr7 : List.range 7 = [0, 1, 2, 3, 4, 5, 6] := rfl
  simp only [get_twist, hco, hr7, List.foldl_cons, List.foldl_nil,
    List.getD_cons_zero, List.getD_cons_succ]
  omega

theorem get_flip_lt (s : CubieCube) (h12 : s.eo.length = 12) (hv : ∀ v ∈ s.eo, v < 2) :
    get_flip s < 2048 := by
  obtain ⟨b0, b1, b2, b3, b4, b5, b6, b7, b8, b9, b10, b11, heo⟩ := exists_twelve s.eo h12
  rw [heo] at hv
  simp only [List.mem_cons, forall_eq_or_imp, List.not_mem_nil] at hv
  have hr11 : List.range 11 = [0, 1, 2, 3, 4, 5, 6, 7, 8, 9, 10] := rfl
  simp only [get_flip, heo, hr11, List.foldl_cons, List.foldl_nil,
    List.getD_cons_zero, List.getD_cons_succ]
  omega

/-- Every permutation window is produced by `genPerm` at exactly its own
index, so the encode loop maps valid windows below the factorial bound. -/
theorem window_encPerm_lt (tgt : Nat → Nat) (js js2 base : List Nat) (N : Nat)
    (hjs2 : ∀ j ∈ js2, j < base.length)
    (hall : ∀ b, b < N → encPerm tgt js (genPerm js2 base b) 0 = b)
    (hcard : (List.permutations base).length = N)
    (w : List Nat) (hw : List.Perm w base) : encPerm tgt js w 0 < N := by
  have hnd : ((List.range N).map (fun b => genPerm js2 base b)).Nodup := by
    apply List.Nodup.map_on ?_ (List.nodup_range N)
    intro x hx y hy hxy
    have hx' := hall x (List.mem_range.mp hx)
    have hy' := hall y (List.mem_range.mp hy)
    rw [hxy] at hx'
    rw [hx'] at hy'
    exact hy'
  have hsub : (List.range N).map (fun b => genPerm js2 base b) ⊆ List.permutations base := by
    intro u hu
    obtain ⟨b, hb, rfl⟩ := List.mem_map.mp hu
    exact List.mem_permutations.mpr (genPerm_perm js2 base b hjs2)
  have hperm : List.Perm ((List.range N).map (fun b => genPerm js2 base b))
      (List.permutations base) := by
    apply List.Subperm.perm_of_length_le (hnd.subperm hsub)
    simp [hcard]
  have hwS : w ∈ (List.range N).map (fun b => genPerm js2 base b) :=
    hperm.mem_iff.mpr (List.mem_permutations.mpr hw)
  obtain ⟨b, hb, hbw⟩ := List.mem_map.mp hwS
  rw [← hbw, hall b (List.mem_range.mp hb)]
  exact List.mem_range.mp hb

theorem perms_6_len : (List.permutations [0, 1, 2, 3, 4, 5]).length = 720 := by
  rw [List.length_permutations]
  rfl

theorem perms_4_len : (List.permutations [8, 9, 10, 11]).length = 24 := by
  rw [List.length_permutations]
  rfl

theorem perms_3a_len : (List.permutations [0, 1, 2]).length = 6 := by
  rw [List.length_permutations]
  rfl

theorem perms_3b_len : (List.permutations [3, 4, 5]).length = 6 := by
  rw [List.length_permutations]
  rfl

theorem get_URFtoDLF_lt (s : CubieCube) (hperm : List.Perm s.cp (List.range 8))
    (hall : ∀ b, b < 720 →
      encPerm id [5, 4, 3, 2, 1] (genPerm [1, 2, 3, 4, 5] [0, 1, 2, 3, 4, 5] b) 0 = b) :
    get_URFtoDLF s < 20160 := by
  obtain ⟨A, hs, hb⟩ := scanFull_enum_spec (fun v => (v ≤ 5 : Bool)) s.cp
  rw [get_URFtoDLF, scanApp_eq_scanFull, hs]
  dsimp only
  have hlen8 : s.cp.length = 8 := by rw [hperm.length_eq]; rfl
  have hcount : s.cp.countP (fun v => (v ≤ 5 : Bool)) = 6 := by
    rw [hperm.countP_eq]; rfl
  rw [hcount, hlen8, choose_8_6] at hb
  have hw : List.Perm (s.cp.filter (fun v => (v ≤ 5 : Bool))) [0, 1, 2, 3, 4, 5] :=
    (hperm.filter _).trans (by rw [show (List.range 8).filter (fun v => (v ≤ 5 : Bool))
      = [0, 1, 2, 3, 4, 5] from rfl])
  have hB := window_encPerm_lt id [5, 4, 3, 2, 1] [1, 2, 3, 4, 5] [0, 1, 2, 3, 4, 5] 720
    (by intro j hj; fin_cases hj <;> decide) hall perms_6_len _ hw
  omega

theorem get_URtoDF_lt (s : CubieCube) (hperm : List.Perm s.ep (List.range 12))
    (hall : ∀ b, b < 720 →
      encPerm id [5, 4, 3, 2, 1] (genPerm [1, 2, 3, 4, 5] [0, 1, 2, 3, 4, 5] b) 0 = b) :
    get_URtoDF s < 665280 := by
  obtain ⟨A, hs, hb⟩ := scanFull_enum_spec (fun v => (v ≤ 5 : Bool)) s.ep
  rw [get_URtoDF, scanApp_eq_scanFull, hs]
  dsimp only
  have hlen12 : s.ep.length = 12 := by rw [hperm.length_eq]; rfl
  have hcount : s.ep.countP (fun v => (v ≤ 5 : Bool)) = 6 := by
    rw [hperm.countP_eq]; rfl
  rw [hcount, hlen12, choose_12_6] at hb
  have hw : List.Perm (s.ep.filter (fun v => (v ≤ 5 : Bool))) [0, 1, 2, 3, 4, 5] :=
    (hperm.filter _).trans (by rw [show (List.range 12).filter (fun v => (v ≤ 5 : Bool))
      = [0, 1, 2, 3, 4, 5] from rfl])
  have hB := window_encPerm_lt id [5, 4, 3, 2, 1] [1, 2, 3, 4, 5] [0, 1, 2, 3, 4, 5] 720
    (by intro j hj; fin_cases hj <;> decide) hall perms_6_len _ hw
  omega

theorem get_URtoUL_lt (s : CubieCube) (hperm : List.Perm s.ep (List.range 12))
    (hall : ∀ b, b < 6 → encPerm id [2, 1] (genPerm [1, 2] [0, 1, 2] b) 0 = b) :
    get_URtoUL s < 1320 := by
  obtain ⟨A, hs, hb⟩ := scanFull_enum_spec (fun v => (v ≤ 2 : Bool)) s.ep
  rw [get_URtoUL, scanApp_eq_scanFull, hs]
  dsimp only
  have hlen12 : s.ep.length = 12 := by rw [hperm.length_eq]; rfl
  have hcount : s.ep.countP (fun v => (v ≤ 2 : Bool)) = 3 := by
    rw [hperm.countP_eq]; rfl
  rw [hcount, hlen12, choose_12_3] at hb
  have hw : List.Perm (s.ep.filter (fun v => (v ≤ 2 : Bool))) [0, 1, 2] :=
    (hperm.filter _).trans (by rw [show (List.range 12).filter (fun v => (v ≤ 2 : Bool))
      = [0, 1, 2] from rfl])
  have hB := window_encPerm_lt id [2, 1] [1, 2] [0, 1, 2] 6
    (by intro j hj; fin_cases hj <;> decide) hall perms_3a_len _ hw
  omega

theorem get_UBtoDF_lt (s : CubieCube) (hperm : List.Perm s.ep (List.range 12))
    (hall : ∀ b, b < 6 → encPerm (fun j => j + 3) [2, 1] (genPerm [1, 2] [3, 4, 5] b) 0 = b) :
    get_UBtoDF s < 1320 := by
  obtain ⟨A, hs, hb⟩ := scanFull_enum_spec (fun v => (3 ≤ v && v ≤ 5 : Bool)) s.ep
  rw [get_UBtoDF, scanApp_eq_scanFull, hs]
  dsimp only
  have hlen12 : s.ep.length = 12 := by rw [hperm.length_eq]; rfl
  have hcount : s.ep.countP (fun v => (3 ≤ v && v ≤ 5 : Bool)) = 3 := by
    rw [hperm.countP_eq]; rfl
  rw [hcount, hlen12, choose_12_3] at hb
  have hw : List.Perm (s.ep.filter (fun v => (3 ≤ v && v ≤ 5 : Bool))) [3, 4, 5] :=
    (hperm.filter _).trans (by rw [show (List.range 12).filter (fun v => (3 ≤ v && v ≤ 5 : Bool))
      = [3, 4, 5] from rfl])
  have hB := window_encPerm_lt (fun j => j + 3) [2, 1] [1, 2] [3, 4, 5] 6
    (by intro j hj; fin_cases hj <;> decide) hall perms_3b_len _ hw
  omega

theorem get_FRtoBR_lt (s : CubieCube) (h12 : s.ep.length = 12)
    (hperm : List.Perm s.ep (List.range 12))
    (hall : ∀ b, b < 24 →
      encPerm (fun j => j + 8) [3, 2, 1] (genPerm [1, 2, 3] [8, 9, 10, 11] b) 0 = b) :
    get_FRtoBR s < 11880 := by
  obtain ⟨A, hs, hb⟩ := scanFull_enum_spec (fun v => (8 ≤ v && v ≤ 11 : Bool)) s.ep.reverse
  rw [get_FRtoBR, enumRev12 _ h12, scanPre_eq_scanFull, hs]
  dsimp only
  have hrperm : List.Perm s.ep.reverse (List.range 12) := (List.reverse_perm _).trans hperm
  have hlen12 : s.ep.reverse.length = 12 := by rw [hrperm.length_eq]; rfl
  have hcount : s.ep.reverse.countP (fun v => (8 ≤ v && v ≤ 11 : Bool)) = 4 := by
    rw [hrperm.countP_eq]; rfl
  rw [hcount, hlen12, choose_12_4] at hb
  have hw : List.Perm ((s.ep.reverse.filter (fun v => (8 ≤ v && v ≤ 11 : Bool))).reverse ++ [])
      [8, 9, 10, 11] := by
    rw [List.append_nil]
    exact (List.reverse_perm _).trans ((hrperm.filter _).trans
      (by rw [show (List.range 12).filter (fun v => (8 ≤ v && v ≤ 11 : Bool))
        = [8, 9, 10, 11] from rfl]))
  have hB := window_encPerm_lt (fun j => j + 8) [3, 2, 1] [1, 2, 3] [8, 9, 10, 11] 24
    (by intro j hj; fin_cases hj <;> decide) hall perms_4_len _ hw
  omega

set_option maxRecDepth 100000

set_option maxHeartbeats 8000000

theorem encPerm_genPerm_720_a : (List.range 120).all
    (fun b => encPerm id [5, 4, 3, 2, 1]
      (genPerm [1, 2, 3, 4, 5] [0, 1, 2, 3, 4, 5] b) 0 == b) = true := by
  decide

theorem encPerm_genPerm_720_b : (List.range 120).all
    (fun b => encPerm id [5, 4, 3, 2, 1]
      (genPerm [1, 2, 3, 4, 5] [0, 1, 2, 3, 4, 5] (120 + b)) 0 == 120 + b) = true := by
  decide

theorem encPerm_genPerm_720_c : (List.range 120).all
    (fun b => encPerm id [5, 4, 3, 2, 1]
      (genPerm [1, 2, 3, 4, 5] [0, 1, 2, 3, 4, 5] (240 + b)) 0 == 240 + b) = true := by
  decide

theorem encPerm_genPerm_720_d : (List.range 120).all
    (fun b => encPerm id [5, 4, 3, 2, 1]
      (genPerm [1, 2, 3, 4, 5] [0, 1, 2, 3, 4, 5] (360 + b)) 0 == 360 + b) = true := by
  decide

theorem encPerm_genPerm_720_e : (List.range 120).all
    (fun b => encPerm id [5, 4, 3, 2, 1]
      (genPerm [1, 2, 3, 4, 5] [0, 1, 2, 3, 4, 5] (480 + b)) 0 == 480 + b) = true := by
  decide

theorem encPerm_genPerm_720_f : (List.range 120).all
    (fun b => encPerm id [5, 4, 3, 2, 1]
      (genPerm [1, 2, 3, 4, 5] [0, 1, 2, 3, 4, 5] (600 + b)) 0 == 600 + b) = true := by
  decide

theorem encPerm_genPerm_720 : ∀ b, b < 720 →
    encPerm id [5, 4, 3, 2, 1] (genPerm [1, 2, 3, 4, 5] [0, 1, 2, 3, 4, 5] b) 0 = b := by
  intro b hb
  by_cases h1 : b < 120
  · exact eq_of_beq (List.all_eq_true.mp encPerm_genPerm_720_a b (List.mem_range.mpr h1))
  by_cases h2 : b < 240
  · have h := List.all_eq_true.mp encPerm_genPerm_720_b (b - 120) (List.mem_range.mpr (by omega))
    rw [show 120 + (b - 120) = b by omega] at h
    exact eq_of_beq h
  by_cases h3 : b < 360
  · have h := List.all_eq_true.mp encPerm_genPerm_720_c (b - 240) (List.mem_range.mpr (by omega))
    rw [show 240 + (b - 240) = b by omega] at h
    exact eq_of_beq h
  by_cases h4 : b < 480
  · have h := List.all_eq_true.mp encPerm_genPerm_720_d (b - 360) (List.mem_range.mpr (by omega))
    rw [show 360 + (b - 360) = b by omega] at h
    exact eq_of_beq h
  by_cases h5 : b < 600
  · have h := List.all_eq_true.mp encPerm_genPerm_720_e (b - 480) (List.mem_range.mpr (by omega))
    rw [show 480 + (b - 480) = b by omega] at h
    exact eq_of_beq h
  · have h := List.all_eq_true.mp encPerm_genPerm_720_f (b - 600) (List.mem_range.mpr (by omega))
    rw [show 600 + (b - 600) = b by omega] at h
    exact eq_of_beq h

theorem encPerm_genPerm_24 : ∀ b, b < 24 →
    encPerm (fun j => j + 8) [3, 2, 1] (genPerm [1, 2, 3] [8, 9, 10, 11] b) 0 = b := by
  have hall : (List.range 24).all
      (fun b => encPerm (fun j => j + 8) [3, 2, 1]
        (genPerm [1, 2, 3] [8, 9, 10, 11] b) 0 == b) = true := by decide
  intro b hb
  exact eq_of_beq (List.all_eq_true.mp hall b (List.mem_range.mpr hb))

theorem encPerm_genPerm_6a : ∀ b, b < 6 →
    encPerm id [2, 1] (genPerm [1, 2] [0, 1, 2] b) 0 = b := by
  have hall : (List.range 6).all
      (fun b => encPerm id [2, 1] (genPerm [1, 2] [0, 1, 2] b) 0 == b) = true := by decide
  intro b hb
  exact eq_of_beq (List.all_eq_true.mp hall b (List.mem_range.mpr hb))

theorem encPerm_genPerm_6b : ∀ b, b < 6 →
    encPerm (fun j => j + 3) [2, 1] (genPerm [1, 2] [3, 4, 5] b) 0 = b := by
  have hall : (List.range 6).all
      (fun b => encPerm (fun j => j + 3) [2, 1] (genPerm [1, 2] [3, 4, 5] b) 0 == b) = true := by
    decide
  intro b hb
  exact eq_of_beq (List.all_eq_true.mp hall b (List.mem_range.mpr hb))

/-- Claim C5: each of the ten coordinate codec pairs of solver_kociemba's
CubieCube satisfies `get (set v) = v` on its stated range (twist 0..2186 and
flip 0..2047 under the data-model orientation arities, FRtoBR 0..11879,
URFtoDLF 0..20159, URtoUL and UBtoDF 0..1319, URtoDF 0..20159, the slice
projection FRtoBR / 24 on 0..494, and the parity projections take values
in 0..1), and on every valid cubie state `set (get s)` reproduces the
coordinate the codec observes: `get (set s (get s)) = get s`. -/
theorem claim5_codec_roundtrips :
    (∀ (c : CubieCube) (v : Nat), c.co.length = 8 → v < 2187 →
      get_twist (set_twist c v) = v) ∧
    (∀ (c : CubieCube) (v : Nat), c.eo.length = 12 → v < 2048 →
      get_flip (set_flip c v) = v) ∧
    (∀ (c : CubieCube) (v : Nat), v < 11880 → get_FRtoBR (set_FRtoBR c v) = v) ∧
    (∀ (c : CubieCube) (v : Nat), v < 20160 → get_URFtoDLF (set_URFtoDLF c v) = v) ∧
    (∀ (c : CubieCube) (v : Nat), v < 1320 → get_URtoUL (set_URtoUL c v) = v) ∧
    (∀ (c : CubieCube) (v : Nat), v < 1320 → get_UBtoDF (set_UBtoDF c v) = v) ∧
    (∀ (c : CubieCube) (v : Nat), v < 20160 → get_URtoDF (set_URtoDF c v) = v) ∧
    (∀ (c : CubieCube) (v : Nat), v < 495 → get_FRtoBR (set_FRtoBR c (24 * v)) / 24 = v) ∧
    (∀ s : CubieCube, corner_parity s < 2 ∧ edge_inversions s % 2 < 2) ∧
    (∀ s : CubieCube, SpecValid s →
      get_twist (set_twist s (get_twist s)) = get_twist s ∧
      get_flip (set_flip s (get_flip s)) = get_flip s ∧
      get_FRtoBR (set_FRtoBR s (get_FRtoBR s)) = get_FRtoBR s ∧
      get_FRtoBR s / 24 < 495 ∧
      get_URFtoDLF (set_URFtoDLF s (get_URFtoDLF s)) = get_URFtoDLF s ∧
      get_URtoUL (set_URtoUL s (get_URtoUL s)) = get_URtoUL s ∧
      get_UBtoDF (set_UBtoDF s (get_UBtoDF s)) = get_UBtoDF s ∧
      get_URtoDF (set_URtoDF s (get_URtoDF s)) = get_URtoDF s) := by
  refine ⟨fun c v h8 hv => get_set_twist c h8 v hv,
    fun c v h12 hv => get_set_flip c h12 v hv,
    fun c v hv => get_set_FRtoBR_aux c v hv (encPerm_genPerm_24 _ (Nat.mod_lt _ (by omega))),
    fun c v hv => get_set_URFtoDLF_aux c v hv (encPerm_genPerm_720 _ (Nat.mod_lt _ (by omega))),
    fun c v hv => get_set_URtoUL_aux c v hv (encPerm_genPerm_6a _ (Nat.mod_lt _ (by omega))),
    fun c v hv => get_set_UBtoDF_aux c v hv (encPerm_genPerm_6b _ (Nat.mod_lt _ (by omega))),
    fun c v hv => get_set_URtoDF_aux c v (by omega)
      (encPerm_genPerm_720 _ (Nat.mod_lt _ (by omega))),
    fun c v hv => ?_, fun s => ⟨Nat.mod_lt _ (by omega), Nat.mod_lt _ (by omega)⟩,
    fun s hs => ?_⟩
  · rw [get_set_FRtoBR_aux c (24 * v) (by omega)
      (encPerm_genPerm_24 _ (Nat.mod_lt _ (by omega)))]
    omega
  · obtain ⟨h1, h2, h3, h4, h5, h6, h7, h8, h9, h10, h11⟩ := hs
    refine ⟨get_set_twist s h2 _ (get_twist_lt s h2 h7),
      get_set_flip s h4 _ (get_flip_lt s h4 h9),
      get_set_FRtoBR_aux s _ (get_FRtoBR_lt s h3 h6 encPerm_genPerm_24)
        (encPerm_genPerm_24 _ (Nat.mod_lt _ (by omega))),
      by have := get_FRtoBR_lt s h3 h6 encPerm_genPerm_24; omega,
      get_set_URFtoDLF_aux s _ (get_URFtoDLF_lt s h5 encPerm_genPerm_720)
        (encPerm_genPerm_720 _ (Nat.mod_lt _ (by omega))),
      get_set_URtoUL_aux s _ (get_URtoUL_lt s h6 encPerm_genPerm_6a)
        (encPerm_genPerm_6a _ (Nat.mod_lt _ (by omega))),
      get_set_UBtoDF_aux s _ (get_UBtoDF_lt s h6 encPerm_genPerm_6b)
        (encPerm_genPerm_6b _ (Nat.mod_lt _ (by omega))),
      get_set_URtoDF_aux s _ (get_URtoDF_lt s h6 encPerm_genPerm_720)
        (encPerm_genPerm_720 _ (Nat.mod_lt _ (by omega)))⟩

/-- Witness for claim C5 at concrete inputs: the top of each codec range on
the solved cube, the slice projection at 494, the parity projection, and a
valid-state round trip. -/
theorem claim5_codec_roundtrips_witness :
    get_twist (set_twist solvedCube 2186) = 2186 ∧
    get_flip (set_flip solvedCube 2047) = 2047 ∧
    get_FRtoBR (set_FRtoBR solvedCube 11879) = 11879 ∧
    get_URFtoDLF (set_URFtoDLF solvedCube 20159) = 20159 ∧
    get_URtoUL (set_URtoUL solvedCube 1319) = 1319 ∧
    get_UBtoDF (set_UBtoDF solvedCube 1319) = 1319 ∧
    get_URtoDF (set_URtoDF solvedCube 20159) = 20159 ∧
    get_FRtoBR (set_FRtoBR solvedCube (24 * 494)) / 24 = 494 ∧
    corner_parity solvedCube < 2 ∧
    get_twist (set_twist solvedCube (get_twist solvedCube)) = get_twist solvedCube :=
  ⟨claim5_codec_roundtrips.1 solvedCube 2186 rfl (by decide),
   claim5_codec_roundtrips.2.1 solvedCube 2047 rfl (by decide),
   claim5_codec_roundtrips.2.2.1 solvedCube 11879 (by decide),
   claim5_codec_roundtrips.2.2.2.1 solvedCube 20159 (by decide),
   claim5_codec_roundtrips.2.2.2.2.1 solvedCube 1319 (by decide),
   claim5_codec_roundtrips.2.2.2.2.2.1 solvedCube 1319 (by decide),
   claim5_codec_roundtrips.2.2.2.2.2.2.1 solvedCube 20159 (by decide),
   claim5_codec_roundtrips.2.2.2.2.2.2.2.1 solvedCube 494 (by decide),
   (claim5_codec_roundtrips.2.2.2.2.2.2.2.2.1 solvedCube).1,
   (claim5_codec_roundtrips.2.2.2.2.2.2.2.2.2 solvedCube (by decide)).1⟩

end Kociemba

-- scratch checks
